import Mathlib

/-!
Verification of the directory-walking and rendering engine of the
code-atlas tool (`src/utils.ts`, plus the CLI boundary in `src/main.ts`).

The TypeScript source is shallowly embedded:

* the filesystem is a tree (`FSTree`): a directory node carries the listing
  that `readdir` would return for it, and every node carries the metadata
  (`size`, `mtimeMs`) that `stat` would return for its path and the text
  that `readFile` would return for it;
* `minimatch` (an external npm dependency, not part of this repository) is
  an abstract parameter `mm : String → String → Bool`;
* asynchronous callbacks mutating captured arrays become state-passing
  functions `σ → σ`; the mutable `depthOpen : Record<number, boolean>`
  (absent keys read as `false`) becomes a total map `Nat → Bool` threaded
  through the recursion and returned, since in JS the caller observes the
  mutations;
* JS strings are Lean `String`s, manipulated through their character
  lists; `localeCompare` (whose default-locale behaviour on the names the
  tests use is code-point order) is modelled as lexicographic code-point
  comparison returning -1/0/1; `Array.prototype.sort` (stable per the
  ECMAScript spec) is modelled as a stable sort by the comparator, which
  for a consistent comparator determines the output uniquely.
-/

namespace CodeAtlas

/-- Lower-case a character, as JS `toLowerCase` does on ASCII letters
(the only characters the repository's extensions and allowlists use). -/
def charLower (c : Char) : Char :=
  if 'A' ≤ c ∧ c ≤ 'Z' then Char.ofNat (c.toNat + 32) else c

/-- Model of JS `String.prototype.toLowerCase`. -/
def jsToLower (s : String) : String :=
  String.mk (s.data.map charLower)

/-- Character-count prefix test on strings (via their character lists). -/
def strIsPrefixOf (p s : String) : Bool :=
  p.data.isPrefixOf s.data

/-- Drop the first `n` characters of a string. -/
def strDropChars (s : String) (n : Nat) : String :=
  String.mk (s.data.drop n)

/-- Lexicographic code-point comparison of character lists, returning
-1, 0 or 1.  Models the comparator semantics of `a.localeCompare(b)`. -/
def compareChars : List Char → List Char → Int
  | [], [] => 0
  | [], _ :: _ => -1
  | _ :: _, [] => 1
  | a :: as, b :: bs =>
    if a.toNat < b.toNat then -1
    else if b.toNat < a.toNat then 1
    else compareChars as bs

/-- Model of `a.localeCompare(b)` (code-point order). -/
def localeCompare (a b : String) : Int :=
  compareChars a.data b.data

/-- The characters of the path component after the last `/`
(Node `path.basename`, for the POSIX separator used throughout). -/
def basenameChars (l : List Char) : List Char :=
  (l.reverse.takeWhile fun c => c ≠ '/').reverse

/-- The extension part of a basename: from the last `.` to the end,
empty if the basename has no `.` or its only `.` is its first character
(Node `path.extname` on the names `readdir` can produce). -/
def extnameChars (b : List Char) : List Char :=
  if (b.reverse.takeWhile fun c => c ≠ '.').length = b.reverse.length then []
  else if (b.reverse.takeWhile fun c => c ≠ '.').length + 1
      = b.reverse.length then []
  else '.' :: (b.reverse.takeWhile fun c => c ≠ '.').reverse

/-- Model of Node `path.extname`. -/
def extname (p : String) : String :=
  String.mk (extnameChars (basenameChars p.data))

/-- The derived extension of a file processed by the content pass:
`extname(filePath).slice(1).toLowerCase()` (src/utils.ts line 178). -/
def fileExtension (filePath : String) : String :=
  jsToLower (strDropChars (extname filePath) 1)

/-- `ext.replace(/^\./, '')`: strip one leading dot (src/utils.ts line 184). -/
def stripLeadingDot (s : String) : String :=
  match s.data with
  | '.' :: rest => String.mk rest
  | _ => s

/-- ECMAScript `GetSubstitution` for a string replacement and a regex
with no capture groups: in the replacement text, `$$` yields `$`, `$&`
yields the matched text, `$` + U+0060 yields the portion of the subject
before the match, `$` + U+0027 yields the portion after it, and every
other `$` sequence (including `$1`..`$9` and `$<`, since there are no
capture groups) stays literal.  `matched` is the matched text, `str` the
whole subject string, and `position` the match's start index in it. -/
def getSubstitution (matched str : List Char) (position : Nat) :
    List Char → List Char
  | [] => []
  | '$' :: c :: rest =>
    if c = '$' then
      '$' :: getSubstitution matched str position rest
    else if c = '&' then
      matched ++ getSubstitution matched str position rest
    else if c = Char.ofNat 96 then
      str.take position ++ getSubstitution matched str position rest
    else if c = Char.ofNat 39 then
      str.drop (position + matched.length) ++
        getSubstitution matched str position rest
    else
      '$' :: c :: getSubstitution matched str position rest
  | c :: rest => c :: getSubstitution matched str position rest

/-- Replace every occurrence of the nonempty pattern `p :: ps` in a
character list, scanning left to right without rescanning the inserted
text: one JS `String.prototype.replace` pass with a global literal-text
regex and the string replacement `r`, each insertion being `r` passed
through `GetSubstitution` at the match's position in the original
subject `orig` (whose traversed prefix has length `pos`). -/
def replaceCore (p : Char) (ps : List Char) (r : List Char)
    (orig : List Char) : Nat → Nat → List Char → List Char
  | 0, _, l => l
  | fuel + 1, pos, l =>
    match l with
    | [] => []
    | x :: xs =>
      if (p :: ps).isPrefixOf (x :: xs) then
        getSubstitution (p :: ps) orig pos r ++
          replaceCore p ps r orig fuel (pos + (ps.length + 1))
            ((x :: xs).drop (ps.length + 1))
      else
        x :: replaceCore p ps r orig fuel (pos + 1) xs

/-- Model of `s.replace(/<literal pattern>/g, r)` with a string
replacement `r`, `$` escapes included.  Each scan step consumes at least
one character, so the string's length bounds the recursion. -/
def jsReplaceAll (s pat r : String) : String :=
  match pat.data with
  | [] => s
  | p :: ps =>
    String.mk (replaceCore p ps r.data s.data s.data.length 0 s.data)

/-- Sort methods of `CodeAtlasConfig['sort']`. -/
inductive SortMethod where
  | name
  | size
  | modified
  | type
deriving Repr, DecidableEq

/-- Sort directions of `CodeAtlasConfig['sortDirection']`. -/
inductive SortDirection where
  | asc
  | desc
deriving Repr, DecidableEq

/-- A filesystem node: a file or a directory together with the listing
`readdir` returns for it.  Both kinds carry the `stat` metadata (`size`,
`mtimeMs`) of their path; a file carries the text `readFile` returns. -/
inductive FSTree where
  | file (name : String) (size : Nat) (mtimeMs : Int) (content : String)
  | dir (name : String) (size : Nat) (mtimeMs : Int) (children : List FSTree)

namespace FSTree

/-- `entry.name` of a `Dirent`. -/
def name : FSTree → String
  | .file n _ _ _ => n
  | .dir n _ _ _ => n

/-- `entry.isDirectory()` of a `Dirent`. -/
def isDirectory : FSTree → Bool
  | .file _ _ _ _ => false
  | .dir _ _ _ _ => true

/-- `stats.size` of the node's path. -/
def statSize : FSTree → Nat
  | .file _ s _ _ => s
  | .dir _ s _ _ => s

/-- `stats.mtimeMs` of the node's path. -/
def statMtimeMs : FSTree → Int
  | .file _ _ m _ => m
  | .dir _ _ m _ => m

/-- The text `readFile` returns for the node (files only; the content
pass never reads a directory). -/
def content : FSTree → String
  | .file _ _ _ c => c
  | .dir _ _ _ _ => ""

/-- The listing `readdir` returns for the node (directories only). -/
def children : FSTree → List FSTree
  | .file _ _ _ _ => []
  | .dir _ _ _ cs => cs

end FSTree

/-- `path.join(dirPath, name)` for the POSIX paths the walker builds. -/
def pathJoin (dirPath nm : String) : String :=
  dirPath ++ ("/") ++ nm

/-- `path.relative(rootDir, fullPath)` for the calls the walker makes:
`fullPath` is always `rootDir ++ "/" ++ rest`, and the relative path is
`rest`. -/
def pathRelative (rootDir fullPath : String) : String :=
  if strIsPrefixOf (rootDir ++ ("/")) fullPath then
    strDropChars fullPath (rootDir ++ ("/")).length
  else fullPath

/-- `shouldIgnore` (src/utils.ts lines 34-37): the literal path `"."` is
always ignored, otherwise the path is ignored when any pattern matches it
(`mm` stands for `minimatch(path, pattern, { dot: true })`). -/
def shouldIgnore (mm : String → String → Bool) (path : String)
    (ignorePatterns : List String) : Bool :=
  if path = "." then true
  else ignorePatterns.any fun pattern => mm path pattern

/-- `directoriesFirst` (src/utils.ts lines 40-45): `none` models the
`null` that signals "same kind, compare further". -/
def directoriesFirst (a b : FSTree) : Option Int :=
  if a.isDirectory ≠ b.isDirectory then
    some (if a.isDirectory then -1 else 1)
  else none

/-- JS `Array.prototype.sort(cmp)` for a consistent comparator: the
stable sort by `cmp a b ≤ 0` (ECMAScript guarantees stability; for a
consistent comparator that fixes the result uniquely). -/
def jsSortBy {α : Type} (cmp : α → α → Int) (l : List α) : List α :=
  List.insertionSort (fun a b => cmp a b ≤ 0) l

/-- `const multiplier = sortDirection === 'asc' ? 1 : -1` (line 54). -/
def sortMultiplier (dirn : SortDirection) : Int :=
  if dirn = SortDirection.asc then 1 else -1

/-- The comparator of the `size`/`modified` branch of `sortEntries`
(lines 66-74), acting on `{ entry, stats }` pairs (here `entry` paired
with `(stats.size, stats.mtimeMs)`). -/
def statsCompare (sortM : SortMethod) (multiplier : Int)
    (a b : FSTree × Nat × Int) : Int :=
  match directoriesFirst a.1 b.1 with
  | some dirCompare => dirCompare
  | none =>
    multiplier *
      (if sortM = SortMethod.size then (a.2.1 : Int) - (b.2.1 : Int)
       else a.2.2 - b.2.2)

/-- The comparator of the `name`/`type` branch of `sortEntries`
(lines 79-98). -/
def nameTypeCompare (sortM : SortMethod) (multiplier : Int)
    (a b : FSTree) : Int :=
  match directoriesFirst a b with
  | some dirCompare => dirCompare
  | none =>
    if a.isDirectory then multiplier * localeCompare a.name b.name
    else if sortM = SortMethod.type ∧
        jsToLower (extname a.name) ≠ jsToLower (extname b.name) then
      multiplier * localeCompare (jsToLower (extname a.name))
        (jsToLower (extname b.name))
    else multiplier * localeCompare a.name b.name

/-- `sortEntries` (src/utils.ts lines 48-99).  For `size`/`modified` the
source first builds `entriesWithStats` by calling
`stat(join(dirPath, entry.name))` for each entry — in the tree model that
stat is the entry's own recorded metadata — sorts the pairs and projects
the entries back out.  `dirPath` is kept as a parameter for fidelity even
though the tree model resolves the stats locally. -/
def sortEntries (entries : List FSTree) (dirPath : String)
    (sort : Option SortMethod) (sortDirection : Option SortDirection) :
    List FSTree :=
  if sort.getD SortMethod.name = SortMethod.size ∨
      sort.getD SortMethod.name = SortMethod.modified then
    (jsSortBy
      (statsCompare (sort.getD SortMethod.name)
        (sortMultiplier (sortDirection.getD SortDirection.asc)))
      (entries.map fun entry =>
        (entry, entry.statSize, entry.statMtimeMs))).map (fun e => e.1)
  else
    jsSortBy
      (nameTypeCompare (sort.getD SortMethod.name)
        (sortMultiplier (sortDirection.getD SortDirection.asc)))
      entries

/-- The per-level preparation of a listing inside `walkDir`
(src/utils.ts lines 126-132): filter out ignored children, then sort. -/
def prepareEntries (mm : String → String → Bool) (ignorePatterns : List String)
    (sort : Option SortMethod) (sortDirection : Option SortDirection)
    (dirPath : String) (entries : List FSTree) : List FSTree :=
  sortEntries
    (entries.filter fun entry =>
      !(shouldIgnore mm (pathJoin dirPath entry.name) ignorePatterns))
    dirPath sort sortDirection

theorem jsSortBy_perm {α : Type} (cmp : α → α → Int) (l : List α) :
    (jsSortBy cmp l).Perm l :=
  List.perm_insertionSort _ l

theorem sortEntries_perm (entries : List FSTree) (dirPath : String)
    (sort : Option SortMethod) (sortDirection : Option SortDirection) :
    (sortEntries entries dirPath sort sortDirection).Perm entries := by
  unfold sortEntries
  split
  · refine ((jsSortBy_perm _ _).map _).trans ?_
    rw [List.map_map, show ((fun e : FSTree × Nat × Int => e.1) ∘
      fun entry => (entry, entry.statSize, entry.statMtimeMs)) = id from rfl,
      List.map_id]
  · exact jsSortBy_perm _ _

theorem sizeOf_filter_le {α : Type} [SizeOf α] (p : α → Bool) (l : List α) :
    sizeOf (l.filter p) ≤ sizeOf l := by
  induction l with
  | nil => simp
  | cons a as ih =>
    simp only [List.filter_cons]
    split <;> simp only [List.cons.sizeOf_spec] <;> omega

theorem prepareEntries_sizeOf_le (mm : String → String → Bool)
    (ignorePatterns : List String) (sort : Option SortMethod)
    (sortDirection : Option SortDirection) (dirPath : String)
    (entries : List FSTree) :
    sizeOf (prepareEntries mm ignorePatterns sort sortDirection dirPath entries)
      ≤ sizeOf entries := by
  unfold prepareEntries
  calc sizeOf (sortEntries _ _ _ _)
      = sizeOf (entries.filter fun entry =>
          !(shouldIgnore mm (pathJoin dirPath entry.name) ignorePatterns)) :=
        (sortEntries_perm _ _ _ _).sizeOf_eq_sizeOf
    _ ≤ sizeOf entries := sizeOf_filter_le _ _

/-- The type of the `onFile`/`onDir` callbacks: the visited entry (the
node at `filePath`, through which the callback's own `stat`/`readFile`
calls are answered), then `filePath`, `relPath`, `depth`, `isLast`,
`depthOpen`, and the state transformation. -/
def FileCallback (σ : Type) : Type :=
  FSTree → String → String → Nat → Bool → (Nat → Bool) → σ → σ

/-- Point update of the `depthOpen` map (`depthOpen[depth] = b`). -/
def setDepth (m : Nat → Bool) (d : Nat) (b : Bool) : Nat → Bool :=
  fun i => if i = d then b else m i

/-- The loop of `walkDir` (src/utils.ts lines 134-151) over the already
filtered and sorted entries of `dirPath`.  The recursive `walkDir` call
on a directory child appears with its listing preparation
(`readdir` + filter + sort, i.e. `prepareEntries`) unfolded, so that the
whole traversal is one well-founded recursion. -/
def walkLoop {σ : Type} (mm : String → String → Bool) (rootDir : String)
    (ignorePatterns : List String) (onFile : FileCallback σ)
    (onDir : Option (FileCallback σ)) (sort : Option SortMethod)
    (sortDirection : Option SortDirection) (dirPath : String)
    (entries : List FSTree) (depth : Nat) (depthOpen : Nat → Bool) (s : σ) :
    σ × (Nat → Bool) :=
  match entries with
  | [] => (s, depthOpen)
  | entry :: rest =>
    let fullPath := pathJoin dirPath entry.name
    let relPath := pathRelative rootDir fullPath
    let isLast := rest.isEmpty
    match entry with
    | FSTree.dir nm sz mt children =>
      let s1 :=
        match onDir with
        | some f =>
          f (FSTree.dir nm sz mt children) fullPath relPath depth isLast depthOpen s
        | none => s
      let depthOpen1 := setDepth depthOpen depth (!isLast)
      let r2 := walkLoop mm rootDir ignorePatterns onFile onDir sort sortDirection
        fullPath (prepareEntries mm ignorePatterns sort sortDirection fullPath children)
        (depth + 1) depthOpen1 s1
      let depthOpen3 := setDepth r2.2 depth false
      walkLoop mm rootDir ignorePatterns onFile onDir sort sortDirection
        dirPath rest depth depthOpen3 r2.1
    | FSTree.file nm sz mt c =>
      let s1 := onFile (FSTree.file nm sz mt c) fullPath relPath depth isLast depthOpen s
      walkLoop mm rootDir ignorePatterns onFile onDir sort sortDirection
        dirPath rest depth depthOpen s1
termination_by sizeOf entries
decreasing_by
  · refine Nat.lt_of_le_of_lt (prepareEntries_sizeOf_le _ _ _ _ _ _) ?_
    simp only [List.cons.sizeOf_spec, FSTree.dir.sizeOf_spec]
    omega
  · simp only [List.cons.sizeOf_spec]
    omega
  · simp only [List.cons.sizeOf_spec]
    omega

/-- `walkDir` (src/utils.ts lines 102-152): list `dirPath` (`entries` is
what `readdir(dirPath)` returns in the tree model), filter, sort, and
loop. -/
def walkDir {σ : Type} (mm : String → String → Bool) (dirPath : String)
    (entries : List FSTree) (rootDir : String) (ignorePatterns : List String)
    (onFile : FileCallback σ) (onDir : Option (FileCallback σ)) (depth : Nat)
    (depthOpen : Nat → Bool) (sort : Option SortMethod)
    (sortDirection : Option SortDirection) (s : σ) : σ × (Nat → Bool) :=
  walkLoop mm rootDir ignorePatterns onFile onDir sort sortDirection dirPath
    (prepareEntries mm ignorePatterns sort sortDirection dirPath entries)
    depth depthOpen s

/-- The resolved options record consumed by `writeFileContent`
(`CodeAtlasConfig`, src/types.ts): `none` models an absent property. -/
structure CodeAtlasConfig where
  dir : Option String := none
  output : Option String := none
  ignore : Option (List String) := none
  includedPathsFile : Option String := none
  excludedPathsFile : Option String := none
  header : Option String := none
  maxFileSize : Option Nat := none
  alwaysIncludeExtensions : Option (List String) := none
  fileTemplate : Option String := none
  sort : Option SortMethod := none
  sortDirection : Option SortDirection := none

/-- The observable result of one `writeFileContent` run: the two returned
arrays and the text appended to the output sink during the run. -/
structure RenderResult where
  includedPaths : List String
  excludedPaths : List String
  output : String
deriving Repr, DecidableEq

/-- The size-policy test of the content callback (src/utils.ts lines
181-190): with a configured `maxFileSize`, a file is excluded when its
`stat` size strictly exceeds the limit and no allowlist entry, lower-cased
and with one leading dot stripped, equals the derived extension. -/
def excludedBySize (maxFileSize : Option Nat)
    (alwaysIncludeExtensions : List String) (entry : FSTree)
    (filePath : String) : Bool :=
  match maxFileSize with
  | some maxSize =>
    decide (entry.statSize > maxSize) &&
      !(alwaysIncludeExtensions.any fun ext =>
        stripLeadingDot (jsToLower ext) == fileExtension filePath)
  | none => false

/-- The text appended to the output for one emitted file (src/utils.ts
lines 198-207): the template with its placeholders substituted by three
successive global replaces plus two newlines, or the default heading plus
fenced code block. -/
def renderChunk (fileTemplate : Option String) (entry : FSTree)
    (filePath relPath : String) : String :=
  match fileTemplate with
  | some t =>
    jsReplaceAll
      (jsReplaceAll (jsReplaceAll t ("\x7b\x7bpath\x7d\x7d") relPath)
        ("\x7b\x7bextension\x7d\x7d") (fileExtension filePath))
      ("\x7b\x7bcontent\x7d\x7d") entry.content ++ ("\n\n")
  | none =>
    ("## ") ++ relPath ++ ("\n") ++ ("```") ++ fileExtension filePath ++
      ("\n") ++ entry.content ++ ("\n```\n\n")

/-- The state transformation of one content-callback invocation
(src/utils.ts lines 177-208): record the path as excluded, or record it
as included and append its rendered chunk to the output. -/
def contentStep (maxFileSize : Option Nat)
    (alwaysIncludeExtensions : List String) (fileTemplate : Option String)
    (entry : FSTree) (filePath relPath : String) (st : RenderResult) :
    RenderResult :=
  if excludedBySize maxFileSize alwaysIncludeExtensions entry filePath then
    { st with excludedPaths := st.excludedPaths ++ [relPath] }
  else
    { includedPaths := st.includedPaths ++ [relPath]
      excludedPaths := st.excludedPaths
      output := st.output ++ renderChunk fileTemplate entry filePath relPath }

/-- The per-file callback `writeFileContent` passes to `walkDir`: it uses
only `filePath` and `relPath` (the positional arguments are ignored, as in
`async (filePath, relPath) => ...`). -/
def contentCallback (maxFileSize : Option Nat)
    (alwaysIncludeExtensions : List String) (fileTemplate : Option String) :
    FileCallback RenderResult :=
  fun entry filePath relPath _ _ _ st =>
    contentStep maxFileSize alwaysIncludeExtensions fileTemplate entry
      filePath relPath st

/-- `writeFileContent` (src/utils.ts lines 154-223): one traversal of the
scan root with the content callback, accumulating the included and
excluded path arrays and the appended output.  `rootEntries` is what
`readdir` returns for the scan root. -/
def writeFileContent (mm : String → String → Bool) (options : CodeAtlasConfig)
    (rootEntries : List FSTree) : RenderResult :=
  (walkDir mm (options.dir.getD ".") rootEntries (options.dir.getD ".")
    (options.ignore.getD [])
    (contentCallback options.maxFileSize
      (options.alwaysIncludeExtensions.getD []) options.fileTemplate)
    none 0 (fun _ => false) options.sort options.sortDirection
    ⟨[], [], ""⟩).1

/-- One file visit of the traversal: the visited node together with the
`filePath` and `relPath` its callback receives. -/
structure FileVisit where
  entry : FSTree
  fullPath : String
  relPath : String

/-- The ordered list of file visits a `walkLoop` run performs on already
prepared `entries`: the same recursion as `walkLoop`, with the state,
`depthOpen` and callbacks stripped away. -/
def fileVisits (mm : String → String → Bool) (rootDir : String)
    (ignorePatterns : List String) (sort : Option SortMethod)
    (sortDirection : Option SortDirection) :
    (dirPath : String) → (entries : List FSTree) → List FileVisit
  | _, [] => []
  | dirPath, entry :: rest =>
    match entry with
    | FSTree.dir nm sz mt children =>
      fileVisits mm rootDir ignorePatterns sort sortDirection
        (pathJoin dirPath (FSTree.dir nm sz mt children).name)
        (prepareEntries mm ignorePatterns sort sortDirection
          (pathJoin dirPath (FSTree.dir nm sz mt children).name) children) ++
      fileVisits mm rootDir ignorePatterns sort sortDirection dirPath rest
    | FSTree.file nm sz mt c =>
      { entry := FSTree.file nm sz mt c
        fullPath := pathJoin dirPath (FSTree.file nm sz mt c).name
        relPath := pathRelative rootDir
          (pathJoin dirPath (FSTree.file nm sz mt c).name) } ::
      fileVisits mm rootDir ignorePatterns sort sortDirection dirPath rest
termination_by _ entries => sizeOf entries
decreasing_by
  · refine Nat.lt_of_le_of_lt (prepareEntries_sizeOf_le _ _ _ _ _ _) ?_
    simp only [List.cons.sizeOf_spec, FSTree.dir.sizeOf_spec]
    omega
  · simp only [List.cons.sizeOf_spec]
    omega
  · simp only [List.cons.sizeOf_spec]
    omega

/-- The file visits of one `writeFileContent` scan: the non-ignored files
the traversal visits, in traversal order. -/
def scanVisits (mm : String → String → Bool) (options : CodeAtlasConfig)
    (rootEntries : List FSTree) : List FileVisit :=
  fileVisits mm (options.dir.getD ".") (options.ignore.getD [])
    options.sort options.sortDirection (options.dir.getD ".")
    (prepareEntries mm (options.ignore.getD []) options.sort
      options.sortDirection (options.dir.getD ".") rootEntries)

/-- One recorded callback invocation: what the callback could observe. -/
structure VisitRec where
  relPath : String
  depth : Nat
  isLast : Bool
  snap : Nat → Bool

/-- A callback that records its `relPath`, `depth`, `isLast` and the
`depthOpen` map as observed at call time. -/
def recordVisit : FileCallback (List VisitRec) :=
  fun _ _ relPath depth isLast depthOpen s =>
    s ++ [{ relPath := relPath, depth := depth, isLast := isLast,
            snap := depthOpen }]

/-- A `walkDir` run that records every file and directory callback. -/
def collectWalk (mm : String → String → Bool) (dirPath : String)
    (entries : List FSTree) (rootDir : String) (ignorePatterns : List String)
    (depth : Nat) (depthOpen : Nat → Bool) (sort : Option SortMethod)
    (sortDirection : Option SortDirection) : List VisitRec × (Nat → Bool) :=
  walkDir mm dirPath entries rootDir ignorePatterns recordVisit
    (some recordVisit) depth depthOpen sort sortDirection []

/-- The ignore filter of a listing (`entries.filter(...)`, shared by both
embedded `walkDir` versions). -/
def filterEntries (mm : String → String → Bool) (ignorePatterns : List String)
    (dirPath : String) (entries : List FSTree) : List FSTree :=
  entries.filter fun entry =>
    !(shouldIgnore mm (pathJoin dirPath entry.name) ignorePatterns)

/-- The loop of the earlier embedded `walkDir` version (src/index.ts of
v1.0.0, lines 244-288 of the concatenated source): identical to
`walkLoop` except that children are visited in raw `readdir` order —
the listing is only filtered, never sorted. -/
def walkLoopOld {σ : Type} (mm : String → String → Bool) (rootDir : String)
    (ignorePatterns : List String) (onFile : FileCallback σ)
    (onDir : Option (FileCallback σ)) (dirPath : String)
    (entries : List FSTree) (depth : Nat) (depthOpen : Nat → Bool) (s : σ) :
    σ × (Nat → Bool) :=
  match entries with
  | [] => (s, depthOpen)
  | entry :: rest =>
    let fullPath := pathJoin dirPath entry.name
    let relPath := pathRelative rootDir fullPath
    let isLast := rest.isEmpty
    match entry with
    | FSTree.dir nm sz mt children =>
      let s1 :=
        match onDir with
        | some f =>
          f (FSTree.dir nm sz mt children) fullPath relPath depth isLast depthOpen s
        | none => s
      let depthOpen1 := setDepth depthOpen depth (!isLast)
      let r2 := walkLoopOld mm rootDir ignorePatterns onFile onDir
        fullPath (filterEntries mm ignorePatterns fullPath children)
        (depth + 1) depthOpen1 s1
      let depthOpen3 := setDepth r2.2 depth false
      walkLoopOld mm rootDir ignorePatterns onFile onDir
        dirPath rest depth depthOpen3 r2.1
    | FSTree.file nm sz mt c =>
      let s1 := onFile (FSTree.file nm sz mt c) fullPath relPath depth isLast depthOpen s
      walkLoopOld mm rootDir ignorePatterns onFile onDir
        dirPath rest depth depthOpen s1
termination_by sizeOf entries
decreasing_by
  · refine Nat.lt_of_le_of_lt (sizeOf_filter_le _ _) ?_
    simp only [List.cons.sizeOf_spec, FSTree.dir.sizeOf_spec]
    omega
  · simp only [List.cons.sizeOf_spec]
    omega
  · simp only [List.cons.sizeOf_spec]
    omega

/-- The earlier embedded `walkDir` (no sorting). -/
def walkDirOld {σ : Type} (mm : String → String → Bool) (dirPath : String)
    (entries : List FSTree) (rootDir : String) (ignorePatterns : List String)
    (onFile : FileCallback σ) (onDir : Option (FileCallback σ)) (depth : Nat)
    (depthOpen : Nat → Bool) (s : σ) : σ × (Nat → Bool) :=
  walkLoopOld mm rootDir ignorePatterns onFile onDir dirPath
    (filterEntries mm ignorePatterns dirPath entries) depth depthOpen s

/-- The (relPath, depth, isDirectory) triples of the entries the later
(sorting) `walkDir` visits, in visit order, given the already prepared
entries of `dirPath`. -/
def tripsNew (mm : String → String → Bool) (rootDir : String)
    (ignorePatterns : List String) (sort : Option SortMethod)
    (sortDirection : Option SortDirection) :
    (dirPath : String) → (depth : Nat) → (entries : List FSTree) →
    List (String × Nat × Bool)
  | _, _, [] => []
  | dirPath, depth, entry :: rest =>
    (pathRelative rootDir (pathJoin dirPath entry.name), depth,
      entry.isDirectory) ::
    match entry with
    | FSTree.dir nm sz mt children =>
      tripsNew mm rootDir ignorePatterns sort sortDirection
        (pathJoin dirPath (FSTree.dir nm sz mt children).name) (depth + 1)
        (prepareEntries mm ignorePatterns sort sortDirection
          (pathJoin dirPath (FSTree.dir nm sz mt children).name) children) ++
      tripsNew mm rootDir ignorePatterns sort sortDirection dirPath depth rest
    | FSTree.file _ _ _ _ =>
      tripsNew mm rootDir ignorePatterns sort sortDirection dirPath depth rest
termination_by _ _ entries => sizeOf entries
decreasing_by
  · refine Nat.lt_of_le_of_lt (prepareEntries_sizeOf_le _ _ _ _ _ _) ?_
    simp only [List.cons.sizeOf_spec, FSTree.dir.sizeOf_spec]
    omega
  · simp only [List.cons.sizeOf_spec]
    omega
  · simp only [List.cons.sizeOf_spec]
    omega

/-- The (relPath, depth, isDirectory) triples of the entries the earlier
(non-sorting) `walkDir` visits, given the already filtered entries. -/
def tripsOld (mm : String → String → Bool) (rootDir : String)
    (ignorePatterns : List String) :
    (dirPath : String) → (depth : Nat) → (entries : List FSTree) →
    List (String × Nat × Bool)
  | _, _, [] => []
  | dirPath, depth, entry :: rest =>
    (pathRelative rootDir (pathJoin dirPath entry.name), depth,
      entry.isDirectory) ::
    match entry with
    | FSTree.dir nm sz mt children =>
      tripsOld mm rootDir ignorePatterns
        (pathJoin dirPath (FSTree.dir nm sz mt children).name) (depth + 1)
        (filterEntries mm ignorePatterns
          (pathJoin dirPath (FSTree.dir nm sz mt children).name) children) ++
      tripsOld mm rootDir ignorePatterns dirPath depth rest
    | FSTree.file _ _ _ _ =>
      tripsOld mm rootDir ignorePatterns dirPath depth rest
termination_by _ _ entries => sizeOf entries
decreasing_by
  · refine Nat.lt_of_le_of_lt (sizeOf_filter_le _ _) ?_
    simp only [List.cons.sizeOf_spec, FSTree.dir.sizeOf_spec]
    omega
  · simp only [List.cons.sizeOf_spec]
    omega
  · simp only [List.cons.sizeOf_spec]
    omega

/-- The contribution of one entry to `tripsNew`: its own triple followed
by the triples of its (prepared) subtree. -/
def blockNew (mm : String → String → Bool) (rootDir : String)
    (ignorePatterns : List String) (sort : Option SortMethod)
    (sortDirection : Option SortDirection) (dirPath : String) (depth : Nat)
    (entry : FSTree) : List (String × Nat × Bool) :=
  (pathRelative rootDir (pathJoin dirPath entry.name), depth,
    entry.isDirectory) ::
  match entry with
  | FSTree.dir nm sz mt children =>
    tripsNew mm rootDir ignorePatterns sort sortDirection
      (pathJoin dirPath (FSTree.dir nm sz mt children).name) (depth + 1)
      (prepareEntries mm ignorePatterns sort sortDirection
        (pathJoin dirPath (FSTree.dir nm sz mt children).name) children)
  | FSTree.file _ _ _ _ => []

/-- The contribution of one entry to `tripsOld`: its own triple followed
by the triples of its (filtered) subtree. -/
def blockOld (mm : String → String → Bool) (rootDir : String)
    (ignorePatterns : List String) (dirPath : String) (depth : Nat)
    (entry : FSTree) : List (String × Nat × Bool) :=
  (pathRelative rootDir (pathJoin dirPath entry.name), depth,
    entry.isDirectory) ::
  match entry with
  | FSTree.dir nm sz mt children =>
    tripsOld mm rootDir ignorePatterns
      (pathJoin dirPath (FSTree.dir nm sz mt children).name) (depth + 1)
      (filterEntries mm ignorePatterns
        (pathJoin dirPath (FSTree.dir nm sz mt children).name) children)
  | FSTree.file _ _ _ _ => []

/-- A filesystem node whose directory listings may fail: `listing` is
what `await readdir(path)` yields — a child list, or the rejection's
error.  Used to settle how listing errors propagate. -/
inductive FSTreeE where
  | file (name : String) (size : Nat) (mtimeMs : Int) (content : String)
  | dir (name : String) (size : Nat) (mtimeMs : Int)
      (listing : Except String (List FSTreeE))

namespace FSTreeE

/-- `entry.name`. -/
def name : FSTreeE → String
  | .file n _ _ _ => n
  | .dir n _ _ _ => n

/-- `entry.isDirectory()`. -/
def isDirectory : FSTreeE → Bool
  | .file _ _ _ _ => false
  | .dir _ _ _ _ => true

/-- `stats.size`. -/
def statSize : FSTreeE → Nat
  | .file _ s _ _ => s
  | .dir _ s _ _ => s

/-- `stats.mtimeMs`. -/
def statMtimeMs : FSTreeE → Int
  | .file _ _ m _ => m
  | .dir _ _ m _ => m

end FSTreeE

/-- `directoriesFirst` over fallible-listing nodes. -/
def directoriesFirstE (a b : FSTreeE) : Option Int :=
  if a.isDirectory ≠ b.isDirectory then
    some (if a.isDirectory then -1 else 1)
  else none

/-- The `size`/`modified` comparator over fallible-listing nodes. -/
def statsCompareE (sortM : SortMethod) (multiplier : Int)
    (a b : FSTreeE × Nat × Int) : Int :=
  match directoriesFirstE a.1 b.1 with
  | some dirCompare => dirCompare
  | none =>
    multiplier *
      (if sortM = SortMethod.size then (a.2.1 : Int) - (b.2.1 : Int)
       else a.2.2 - b.2.2)

/-- The `name`/`type` comparator over fallible-listing nodes. -/
def nameTypeCompareE (sortM : SortMethod) (multiplier : Int)
    (a b : FSTreeE) : Int :=
  match directoriesFirstE a b with
  | some dirCompare => dirCompare
  | none =>
    if a.isDirectory then multiplier * localeCompare a.name b.name
    else if sortM = SortMethod.type ∧
        jsToLower (extname a.name) ≠ jsToLower (extname b.name) then
      multiplier * localeCompare (jsToLower (extname a.name))
        (jsToLower (extname b.name))
    else multiplier * localeCompare a.name b.name

/-- `sortEntries` over fallible-listing nodes. -/
def sortEntriesE (entries : List FSTreeE) (dirPath : String)
    (sort : Option SortMethod) (sortDirection : Option SortDirection) :
    List FSTreeE :=
  if sort.getD SortMethod.name = SortMethod.size ∨
      sort.getD SortMethod.name = SortMethod.modified then
    (jsSortBy
      (statsCompareE (sort.getD SortMethod.name)
        (sortMultiplier (sortDirection.getD SortDirection.asc)))
      (entries.map fun entry =>
        (entry, entry.statSize, entry.statMtimeMs))).map (fun e => e.1)
  else
    jsSortBy
      (nameTypeCompareE (sort.getD SortMethod.name)
        (sortMultiplier (sortDirection.getD SortDirection.asc)))
      entries

/-- Listing preparation over fallible-listing nodes. -/
def prepareEntriesE (mm : String → String → Bool)
    (ignorePatterns : List String) (sort : Option SortMethod)
    (sortDirection : Option SortDirection) (dirPath : String)
    (entries : List FSTreeE) : List FSTreeE :=
  sortEntriesE
    (entries.filter fun entry =>
      !(shouldIgnore mm (pathJoin dirPath entry.name) ignorePatterns))
    dirPath sort sortDirection

theorem sortEntriesE_perm (entries : List FSTreeE) (dirPath : String)
    (sort : Option SortMethod) (sortDirection : Option SortDirection) :
    (sortEntriesE entries dirPath sort sortDirection).Perm entries := by
  unfold sortEntriesE
  split
  · refine ((jsSortBy_perm _ _).map _).trans ?_
    rw [List.map_map, show ((fun e : FSTreeE × Nat × Int => e.1) ∘
      fun entry => (entry, entry.statSize, entry.statMtimeMs)) = id from rfl,
      List.map_id]
  · exact jsSortBy_perm _ _

theorem prepareEntriesE_sizeOf_le (mm : String → String → Bool)
    (ignorePatterns : List String) (sort : Option SortMethod)
    (sortDirection : Option SortDirection) (dirPath : String)
    (entries : List FSTreeE) :
    sizeOf
        (prepareEntriesE mm ignorePatterns sort sortDirection dirPath entries)
      ≤ sizeOf entries := by
  unfold prepareEntriesE
  calc sizeOf (sortEntriesE _ _ _ _)
      = sizeOf (entries.filter fun entry =>
          !(shouldIgnore mm (pathJoin dirPath entry.name) ignorePatterns)) :=
        (sortEntriesE_perm _ _ _ _).sizeOf_eq_sizeOf
    _ ≤ sizeOf entries := sizeOf_filter_le _ _

/-- The callback type over fallible-listing nodes. -/
def FileCallbackE (σ : Type) : Type :=
  FSTreeE → String → String → Nat → Bool → (Nat → Bool) → σ → σ

/-- The `walkDir` loop over fallible listings: as in the source, the
`await readdir` of a directory child sits inside the recursive call with
nothing catching its rejection, so a listing error is returned
immediately, abandoning the remaining siblings. -/
def walkLoopE {σ : Type} (mm : String → String → Bool) (rootDir : String)
    (ignorePatterns : List String) (onFile : FileCallbackE σ)
    (onDir : Option (FileCallbackE σ)) (sort : Option SortMethod)
    (sortDirection : Option SortDirection) (dirPath : String)
    (entries : List FSTreeE) (depth : Nat) (depthOpen : Nat → Bool) (s : σ) :
    Except String (σ × (Nat → Bool)) :=
  match entries with
  | [] => Except.ok (s, depthOpen)
  | entry :: rest =>
    let fullPath := pathJoin dirPath entry.name
    let relPath := pathRelative rootDir fullPath
    let isLast := rest.isEmpty
    match entry with
    | FSTreeE.dir nm sz mt listing =>
      let s1 :=
        match onDir with
        | some f =>
          f (FSTreeE.dir nm sz mt listing) fullPath relPath depth isLast depthOpen s
        | none => s
      let depthOpen1 := setDepth depthOpen depth (!isLast)
      match listing with
      | Except.error e => Except.error e
      | Except.ok children =>
        match walkLoopE mm rootDir ignorePatterns onFile onDir sort
          sortDirection fullPath
          (prepareEntriesE mm ignorePatterns sort sortDirection fullPath children)
          (depth + 1) depthOpen1 s1 with
        | Except.error e => Except.error e
        | Except.ok (s2, depthOpen2) =>
          walkLoopE mm rootDir ignorePatterns onFile onDir sort sortDirection
            dirPath rest depth (setDepth depthOpen2 depth false) s2
    | FSTreeE.file nm sz mt c =>
      let s1 := onFile (FSTreeE.file nm sz mt c) fullPath relPath depth isLast depthOpen s
      walkLoopE mm rootDir ignorePatterns onFile onDir sort sortDirection
        dirPath rest depth depthOpen s1
termination_by sizeOf entries
decreasing_by
  · refine Nat.lt_of_le_of_lt (prepareEntriesE_sizeOf_le _ _ _ _ _ _) ?_
    simp only [List.cons.sizeOf_spec, FSTreeE.dir.sizeOf_spec,
      Except.ok.sizeOf_spec]
    omega
  · simp only [List.cons.sizeOf_spec]
    omega
  · simp only [List.cons.sizeOf_spec]
    omega

/-- `walkDir` over fallible listings: `listing` is what `await
readdir(dirPath)` yields for the call's own directory; a rejection
propagates to the caller with no partial result. -/
def walkDirE {σ : Type} (mm : String → String → Bool) (dirPath : String)
    (listing : Except String (List FSTreeE)) (rootDir : String)
    (ignorePatterns : List String) (onFile : FileCallbackE σ)
    (onDir : Option (FileCallbackE σ)) (depth : Nat) (depthOpen : Nat → Bool)
    (sort : Option SortMethod) (sortDirection : Option SortDirection) (s : σ) :
    Except String (σ × (Nat → Bool)) :=
  match listing with
  | Except.error e => Except.error e
  | Except.ok entries =>
    walkLoopE mm rootDir ignorePatterns onFile onDir sort sortDirection dirPath
      (prepareEntriesE mm ignorePatterns sort sortDirection dirPath entries)
      depth depthOpen s

/-- The CLI boundary (src/main.ts): `main` wraps the scan in
`try/catch` — and `main().catch` backs it up — so a rejected scan
reaches `process.exit(1)` while a completed scan lets the process finish
with exit code 0. -/
def mainExitCode {α : Type} (scan : Except String α) : Nat :=
  match scan with
  | Except.ok _ => 0
  | Except.error _ => 1

/-- The size-policy test of a file visit. -/
def visitExcluded (maxFileSize : Option Nat)
    (alwaysIncludeExtensions : List String) (v : FileVisit) : Bool :=
  excludedBySize maxFileSize alwaysIncludeExtensions v.entry v.fullPath

/-- The rendered chunk of a file visit. -/
def visitChunk (fileTemplate : Option String) (v : FileVisit) : String :=
  renderChunk fileTemplate v.entry v.fullPath v.relPath

/-- Concatenation of a list of output chunks. -/
def joinChunks : List String → String
  | [] => ""
  | c :: cs => c ++ joinChunks cs

/-- The matcher of an empty pattern set (no pattern ever matches);
used for concrete runs. -/
def mm0 : String → String → Bool := fun _ _ => false

/-- A resolved options record with only a 1000-byte size limit. -/
def cfgMax : CodeAtlasConfig := { maxFileSize := some 1000 }

/-- A scan root with one tiny file and one oversized file. -/
def rootsSmallBig : List FSTree :=
  [FSTree.file ("small.ts") 1 0 ("tiny"),
   FSTree.file ("big.bin") 10000 0 ("BIG")]

/-- Three plain files with distinct extensions. -/
def rootsTypeSort : List FSTree :=
  [FSTree.file ("script.ts") 1 0 (""),
   FSTree.file ("style.css") 1 0 (""),
   FSTree.file ("data.json") 1 0 ("")]

/-- Two directories whose stat sizes order them against their names. -/
def dirsBySize : List FSTree :=
  [FSTree.dir ("b") 5 0 [], FSTree.dir ("a") 10 0 []]

/-- An options record with every property absent. -/
def cfgPlain : CodeAtlasConfig := {}

/-- A scan root holding a single dotfile. -/
def rootsDotfile : List FSTree := [FSTree.file (".bashrc") 1 0 ("x")]

/-- An options record whose template is the single placeholder
`{{path}}`. -/
def cfgTmpl : CodeAtlasConfig :=
  { fileTemplate := some ("\x7b\x7bpath\x7d\x7d") }

/-- A scan root holding one file whose *name* is the literal text
`{{content}}` — legal on a POSIX filesystem. -/
def rootsBraced : List FSTree :=
  [FSTree.file ("\x7b\x7bcontent\x7d\x7d") 1 0 ("SECRET")]

/-- An options record whose template is the single placeholder
`{{content}}`. -/
def cfgTmplAmp : CodeAtlasConfig :=
  { fileTemplate := some ("\x7b\x7bcontent\x7d\x7d") }

/-- A scan root holding one file whose *text* is the two characters
`$&`. -/
def rootsAmp : List FSTree :=
  [FSTree.file ("a.ts") 1 0 ("$&")]

/-- A callback recording `(relPath, depth, isDirectory)` triples. -/
def recordTriple : FileCallback (List (String × Nat × Bool)) :=
  fun e _ relPath depth _ _ s => s ++ [(relPath, depth, e.isDirectory)]

/-- Simultaneous substitution, following the specification's words: every
occurrence of a placeholder *in the template* is replaced by the
corresponding value; text contributed by the values is not rescanned. -/
def substSimultaneousCore (pathV extV contV : List Char) :
    Nat → List Char → List Char
  | 0, l => l
  | fuel + 1, l =>
    match l with
    | [] => []
    | c :: cs =>
      if ("\x7b\x7bpath\x7d\x7d").data.isPrefixOf (c :: cs) then
        pathV ++ substSimultaneousCore pathV extV contV fuel
          ((c :: cs).drop 8)
      else if ("\x7b\x7bextension\x7d\x7d").data.isPrefixOf (c :: cs) then
        extV ++ substSimultaneousCore pathV extV contV fuel
          ((c :: cs).drop 13)
      else if ("\x7b\x7bcontent\x7d\x7d").data.isPrefixOf (c :: cs) then
        contV ++ substSimultaneousCore pathV extV contV fuel
          ((c :: cs).drop 11)
      else
        c :: substSimultaneousCore pathV extV contV fuel cs

/-- Simultaneous template substitution over strings (the claim's reading
of "every occurrence of the placeholders in the template is substituted
with respectively the path, the extension and the content").  Each scan
step consumes at least one character, so the template's length bounds
the recursion. -/
def substSimultaneous (template pathV extV contV : String) : String :=
  String.mk (substSimultaneousCore pathV.data extV.data contV.data
    template.data.length template.data)

/-- The claim's description of the derived extension: the lower-casing of
the characters after the final `.` of the file name, empty if the name
has no `.`. -/
def extAfterFinalDotSpec (nm : String) : String :=
  if nm.data.contains '.' then
    jsToLower (String.mk ((nm.data.reverse.takeWhile fun c => c ≠ '.').reverse))
  else ""

/-- The amended description: additionally, a name whose only `.` is its
leading character (a dotfile such as `.bashrc`) has the empty extension. -/
def amendedExtSpec (nm : String) : String :=
  if (nm.data.drop 1).contains '.' then
    jsToLower (String.mk ((nm.data.reverse.takeWhile fun c => c ≠ '.').reverse))
  else ""

/-- The lower-cased extension used as the primary `type` sort key. -/
def extLower (e : FSTree) : String := jsToLower (extname e.name)

/-- Name comparison in the given direction. -/
def nameLE (dirn : SortDirection) (a b : String) : Prop :=
  match dirn with
  | SortDirection.asc => localeCompare a b ≤ 0
  | SortDirection.desc => 0 ≤ localeCompare a b

/-- The stat value compared under `size`/`modified`, in the given
direction. -/
def statLE (m : SortMethod) (dirn : SortDirection) (a b : FSTree) : Prop :=
  match m, dirn with
  | SortMethod.size, SortDirection.asc => a.statSize ≤ b.statSize
  | SortMethod.size, SortDirection.desc => b.statSize ≤ a.statSize
  | _, SortDirection.asc => a.statMtimeMs ≤ b.statMtimeMs
  | _, SortDirection.desc => b.statMtimeMs ≤ a.statMtimeMs

/-- File-vs-file order under `type`: lower-cased extension as primary
key, name as tie-break. -/
def typeLE (dirn : SortDirection) (a b : FSTree) : Prop :=
  match dirn with
  | SortDirection.asc =>
    localeCompare (extLower a) (extLower b) < 0 ∨
      (extLower a = extLower b ∧ localeCompare a.name b.name ≤ 0)
  | SortDirection.desc =>
    0 < localeCompare (extLower a) (extLower b) ∨
      (extLower a = extLower b ∧ 0 ≤ localeCompare a.name b.name)

/-- File-vs-file order under the chosen method and direction. -/
def fileOrderLE (m : SortMethod) (dirn : SortDirection) (a b : FSTree) :
    Prop :=
  match m with
  | SortMethod.name => nameLE dirn a.name b.name
  | SortMethod.type => typeLE dirn a b
  | SortMethod.size => statLE SortMethod.size dirn a b
  | SortMethod.modified => statLE SortMethod.modified dirn a b

/-- Directory-vs-directory order under the chosen method and direction:
by name under `name`/`type`, by the stat value under `size`/`modified`
(the amendment the code forces on the claim). -/
def dirOrderLE (m : SortMethod) (dirn : SortDirection) (a b : FSTree) :
    Prop :=
  match m with
  | SortMethod.name => nameLE dirn a.name b.name
  | SortMethod.type => nameLE dirn a.name b.name
  | SortMethod.size => statLE SortMethod.size dirn a b
  | SortMethod.modified => statLE SortMethod.modified dirn a b

/-- The pairwise order `sortEntries` produces: directories always before
files; same-kind entries by `dirOrderLE`/`fileOrderLE`. -/
def sortedRel (m : SortMethod) (dirn : SortDirection) (a b : FSTree) :
    Prop :=
  match a.isDirectory, b.isDirectory with
  | true, false => True
  | false, true => False
  | true, true => dirOrderLE m dirn a b
  | false, false => fileOrderLE m dirn a b

/-- A legal entry name as `readdir` can return it: nonempty and without
a path separator. -/
def validName (nm : String) : Bool :=
  decide (nm ≠ "") && !(nm.data.contains '/')

mutual

/-- A well-formed filesystem node: its name is legal and the listing of
every directory has pairwise-distinct child names. -/
def wellFormed : FSTree → Bool
  | FSTree.file nm _ _ _ => validName nm
  | FSTree.dir nm _ _ cs =>
    validName nm && decide ((cs.map FSTree.name).Nodup) && wellFormedList cs

/-- All nodes of a listing are well formed. -/
def wellFormedList : List FSTree → Bool
  | [] => true
  | c :: cs => wellFormed c && wellFormedList cs

end

/-- A well-formed scan root listing: pairwise-distinct names, all nodes
well formed. -/
def wellFormedRoots (roots : List FSTree) : Bool :=
  decide ((roots.map FSTree.name).Nodup) && wellFormedList roots

/-- The directory path of the walk at relative position `pre` below the
root: the root itself, or `root ++ "/" ++ p`. -/
def dirOf (root : String) : Option String → String
  | none => root
  | some p => root ++ ("/") ++ p

/-- The relative path of the child `nm` of the directory at relative
position `pre`. -/
def relOf : Option String → String → String
  | none, nm => nm
  | some p, nm => p ++ ("/") ++ nm

/-! ### Lexicographic comparison kit -/

theorem char_toNat_inj {a b : Char} (h : a.toNat = b.toNat) : a = b := by
  have h1 : Char.ofNat a.toNat = Char.ofNat b.toNat := by rw [h]
  rwa [Char.ofNat_toNat, Char.ofNat_toNat] at h1

theorem compareChars_neg (a b : List Char) :
    compareChars a b = -(compareChars b a) := by
  induction a generalizing b with
  | nil => cases b <;> simp [compareChars]
  | cons x xs ih =>
    cases b with
    | nil => simp [compareChars]
    | cons y ys =>
      simp only [compareChars]
      rcases Nat.lt_trichotomy x.toNat y.toNat with h | h | h
      · rw [if_pos h, if_neg (show ¬ y.toNat < x.toNat by omega), if_pos h]
      · rw [if_neg (show ¬ x.toNat < y.toNat by omega),
          if_neg (show ¬ y.toNat < x.toNat by omega),
          if_neg (show ¬ y.toNat < x.toNat by omega),
          if_neg (show ¬ x.toNat < y.toNat by omega)]
        exact ih ys
      · rw [if_neg (show ¬ x.toNat < y.toNat by omega), if_pos h, if_pos h]
        decide

theorem compareChars_trans {a b c : List Char} (hab : compareChars a b ≤ 0)
    (hbc : compareChars b c ≤ 0) : compareChars a c ≤ 0 := by
  induction a generalizing b c with
  | nil => cases c <;> simp [compareChars]
  | cons x xs ih =>
    cases b with
    | nil => simp [compareChars] at hab
    | cons y ys =>
      cases c with
      | nil => simp [compareChars] at hbc
      | cons z zs =>
        simp only [compareChars] at hab hbc ⊢
        by_cases hxy : x.toNat < y.toNat
        · by_cases hyz : y.toNat < z.toNat
          · rw [if_pos (show x.toNat < z.toNat by omega)]
            omega
          · by_cases hzy : z.toNat < y.toNat
            · rw [if_neg hyz, if_pos hzy] at hbc
              exact absurd hbc (by decide)
            · rw [if_pos (show x.toNat < z.toNat by omega)]
              omega
        · by_cases hyx : y.toNat < x.toNat
          · rw [if_neg hxy, if_pos hyx] at hab
            exact absurd hab (by decide)
          · rw [if_neg hxy, if_neg hyx] at hab
            by_cases hyz : y.toNat < z.toNat
            · rw [if_pos (show x.toNat < z.toNat by omega)]
              omega
            · by_cases hzy : z.toNat < y.toNat
              · rw [if_neg hyz, if_pos hzy] at hbc
                exact absurd hbc (by decide)
              · rw [if_neg hyz, if_neg hzy] at hbc
                rw [if_neg (show ¬ x.toNat < z.toNat by omega),
                  if_neg (show ¬ z.toNat < x.toNat by omega)]
                exact ih hab hbc

theorem compareChars_eq_zero_iff (a b : List Char) :
    compareChars a b = 0 ↔ a = b := by
  induction a generalizing b with
  | nil => cases b <;> simp [compareChars]
  | cons x xs ih =>
    cases b with
    | nil => simp [compareChars]
    | cons y ys =>
      simp only [compareChars]
      rcases Nat.lt_trichotomy x.toNat y.toNat with h | h | h
      · rw [if_pos h]
        constructor
        · intro he
          exact absurd he (by decide)
        · intro he
          cases he
          omega
      · rw [if_neg (show ¬ x.toNat < y.toNat by omega),
          if_neg (show ¬ y.toNat < x.toNat by omega)]
        have hxy : x = y := char_toNat_inj h
        subst hxy
        rw [ih ys]
        constructor
        · intro he
          rw [he]
        · intro he
          injection he
      · rw [if_neg (show ¬ x.toNat < y.toNat by omega), if_pos h]
        constructor
        · intro he
          exact absurd he (by decide)
        · intro he
          cases he
          omega

theorem localeCompare_neg (a b : String) :
    localeCompare a b = -(localeCompare b a) :=
  compareChars_neg a.data b.data

theorem localeCompare_trans {a b c : String} (hab : localeCompare a b ≤ 0)
    (hbc : localeCompare b c ≤ 0) : localeCompare a c ≤ 0 :=
  compareChars_trans hab hbc

theorem localeCompare_eq_zero_iff (a b : String) :
    localeCompare a b = 0 ↔ a = b := by
  unfold localeCompare
  rw [compareChars_eq_zero_iff]
  constructor
  · intro h
    cases a with
    | mk da =>
      cases b with
      | mk db => exact congrArg String.mk h
  · intro h
    rw [h]

/-! ### Sorting kit -/

theorem jsSortBy_pairwise {α : Type} (cmp : α → α → Int)
    (hneg : ∀ a b, cmp a b = -(cmp b a))
    (htrans : ∀ a b c, cmp a b ≤ 0 → cmp b c ≤ 0 → cmp a c ≤ 0) (l : List α) :
    (jsSortBy cmp l).Pairwise (fun a b => cmp a b ≤ 0) := by
  haveI : IsTotal α (fun a b => cmp a b ≤ 0) :=
    ⟨fun a b => by have := hneg a b; omega⟩
  haveI : IsTrans α (fun a b => cmp a b ≤ 0) := ⟨htrans⟩
  exact List.sorted_insertionSort _ l

theorem mul_lc_trans {mult : Int} (hm : mult = 1 ∨ mult = -1) {x y z : String}
    (h1 : mult * localeCompare x y ≤ 0) (h2 : mult * localeCompare y z ≤ 0) :
    mult * localeCompare x z ≤ 0 := by
  rcases hm with h | h <;> subst h
  · simp only [one_mul] at *
    exact localeCompare_trans h1 h2
  · have e1 : localeCompare y x ≤ 0 := by
      have := localeCompare_neg x y
      omega
    have e2 : localeCompare z y ≤ 0 := by
      have := localeCompare_neg y z
      omega
    have e3 : localeCompare z x ≤ 0 := localeCompare_trans e2 e1
    have := localeCompare_neg x z
    omega

theorem lc_eq_of_both {mult : Int} (hm : mult = 1 ∨ mult = -1) {x y : String}
    (h1 : mult * localeCompare x y ≤ 0) (h2 : mult * localeCompare y x ≤ 0) :
    x = y := by
  rw [← localeCompare_eq_zero_iff]
  have := localeCompare_neg x y
  rcases hm with h | h <;> subst h <;> omega

theorem nameTypeCompare_neg (m : SortMethod) (mult : Int) (a b : FSTree) :
    nameTypeCompare m mult a b = -(nameTypeCompare m mult b a) := by
  cases a <;> cases b <;>
    simp only [nameTypeCompare, directoriesFirst, FSTree.isDirectory,
      FSTree.name, ne_eq, reduceCtorEq, not_false_eq_true, reduceIte,
      Bool.false_eq_true, Bool.true_eq_false, not_true_eq_false, ite_false,
      ite_true]
  case file.dir => decide
  case file.file na sa ma ca nb sb mb cb =>
    by_cases hc : m = SortMethod.type ∧
      jsToLower (extname na) ≠ jsToLower (extname nb)
    · rw [if_pos hc, if_pos ⟨hc.1, fun he => hc.2 he.symm⟩,
        localeCompare_neg (jsToLower (extname na))]
      ring
    · have hc2 : ¬(m = SortMethod.type ∧
          jsToLower (extname nb) ≠ jsToLower (extname na)) :=
        fun hk => hc ⟨hk.1, fun he => hk.2 he.symm⟩
      rw [if_neg hc, if_neg hc2, localeCompare_neg na nb]
      ring
  case dir.dir na sa ma ca nb sb mb cb =>
    rw [localeCompare_neg na nb]
    ring

theorem nameTypeCompare_trans (m : SortMethod) {mult : Int}
    (hm : mult = 1 ∨ mult = -1) (a b c : FSTree)
    (hab : nameTypeCompare m mult a b ≤ 0)
    (hbc : nameTypeCompare m mult b c ≤ 0) :
    nameTypeCompare m mult a c ≤ 0 := by
  cases a <;> cases b <;> cases c <;>
    simp only [nameTypeCompare, directoriesFirst, FSTree.isDirectory,
      FSTree.name, ne_eq, reduceCtorEq, not_false_eq_true, reduceIte,
      Bool.false_eq_true, Bool.true_eq_false, not_true_eq_false, ite_false,
      ite_true] at *
  case file.file.file na sa ma ca nb sb mb cb nc sc mc cc =>
    by_cases hmt : m = SortMethod.type
    · by_cases e1 : jsToLower (extname na) = jsToLower (extname nb)
      · by_cases e2 : jsToLower (extname nb) = jsToLower (extname nc)
        · rw [if_neg (by simp [e1])] at hab
          rw [if_neg (by simp [e2])] at hbc
          rw [if_neg (by simp [e1.trans e2])]
          exact mul_lc_trans hm hab hbc
        · rw [if_neg (by simp [e1])] at hab
          rw [if_pos ⟨hmt, e2⟩] at hbc
          rw [if_pos ⟨hmt, fun he => e2 (e1.symm.trans he)⟩, e1]
          exact hbc
      · by_cases e2 : jsToLower (extname nb) = jsToLower (extname nc)
        · rw [if_pos ⟨hmt, e1⟩] at hab
          rw [if_pos ⟨hmt, fun he => e1 (he.trans e2.symm)⟩, ← e2]
          exact hab
        · rw [if_pos ⟨hmt, e1⟩] at hab
          rw [if_pos ⟨hmt, e2⟩] at hbc
          by_cases e3 : jsToLower (extname na) = jsToLower (extname nc)
          · rw [← e3] at hbc
            exact absurd (lc_eq_of_both hm hab hbc) e1
          · rw [if_pos ⟨hmt, e3⟩]
            exact mul_lc_trans hm hab hbc
    · have hno : ∀ x y : String, ¬(m = SortMethod.type ∧
          jsToLower (extname x) ≠ jsToLower (extname y)) :=
        fun x y hk => hmt hk.1
      rw [if_neg (hno na nb)] at hab
      rw [if_neg (hno nb nc)] at hbc
      rw [if_neg (hno na nc)]
      exact mul_lc_trans hm hab hbc
  case dir.dir.dir => exact mul_lc_trans hm hab hbc
  all_goals first
    | decide
    | exact absurd hab (by decide)
    | exact absurd hbc (by decide)

theorem statsCompare_neg (m : SortMethod) (mult : Int)
    (a b : FSTree × Nat × Int) :
    statsCompare m mult a b = -(statsCompare m mult b a) := by
  obtain ⟨ea, sa, ma⟩ := a
  obtain ⟨eb, sb, mb⟩ := b
  cases ea <;> cases eb <;>
    simp only [statsCompare, directoriesFirst, FSTree.isDirectory, ne_eq,
      reduceCtorEq, not_false_eq_true, reduceIte, Bool.false_eq_true,
      Bool.true_eq_false, not_true_eq_false, ite_false, ite_true]
  · split <;> ring
  · decide
  · split <;> ring

theorem statsCompare_trans (m : SortMethod) {mult : Int}
    (hm : mult = 1 ∨ mult = -1) (a b c : FSTree × Nat × Int)
    (hab : statsCompare m mult a b ≤ 0)
    (hbc : statsCompare m mult b c ≤ 0) :
    statsCompare m mult a c ≤ 0 := by
  obtain ⟨ea, sa, ma⟩ := a
  obtain ⟨eb, sb, mb⟩ := b
  obtain ⟨ec, sc, mc⟩ := c
  cases ea <;> cases eb <;> cases ec <;>
    simp only [statsCompare, directoriesFirst, FSTree.isDirectory, ne_eq,
      reduceCtorEq, not_false_eq_true, reduceIte, Bool.false_eq_true,
      Bool.true_eq_false, not_true_eq_false, ite_false, ite_true] at *
  case file.file.file =>
    split at hab <;> split at hbc <;> split <;>
      rcases hm with h | h <;> subst h <;> simp_all <;> omega
  case dir.dir.dir =>
    split at hab <;> split at hbc <;> split <;>
      rcases hm with h | h <;> subst h <;> simp_all <;> omega
  all_goals first
    | decide
    | exact absurd hab (by decide)
    | exact absurd hbc (by decide)

theorem sortMultiplier_cases (dirn : SortDirection) :
    sortMultiplier dirn = 1 ∨ sortMultiplier dirn = -1 := by
  cases dirn <;> simp [sortMultiplier]

/-! ### Unfolding equations and an induction principle for the walk -/

theorem walkLoop_nil {σ : Type} (mm : String → String → Bool)
    (rootDir : String) (pats : List String) (onFile : FileCallback σ)
    (onDir : Option (FileCallback σ)) (sort : Option SortMethod)
    (sd : Option SortDirection) (dirPath : String) (depth : Nat)
    (dOpen : Nat → Bool) (s : σ) :
    walkLoop mm rootDir pats onFile onDir sort sd dirPath [] depth dOpen s
      = (s, dOpen) := by
  simp [walkLoop]

theorem walkLoop_cons_dir {σ : Type} (mm : String → String → Bool)
    (rootDir : String) (pats : List String) (onFile : FileCallback σ)
    (onDir : Option (FileCallback σ)) (sort : Option SortMethod)
    (sd : Option SortDirection) (dirPath : String) (nm : String) (sz : Nat)
    (mt : Int) (children rest : List FSTree) (depth : Nat)
    (dOpen : Nat → Bool) (s : σ) :
    walkLoop mm rootDir pats onFile onDir sort sd dirPath
      (FSTree.dir nm sz mt children :: rest) depth dOpen s =
    (fun r2 : σ × (Nat → Bool) =>
      walkLoop mm rootDir pats onFile onDir sort sd dirPath rest depth
        (setDepth r2.2 depth false) r2.1)
    (walkLoop mm rootDir pats onFile onDir sort sd (pathJoin dirPath nm)
      (prepareEntries mm pats sort sd (pathJoin dirPath nm) children)
      (depth + 1) (setDepth dOpen depth (!rest.isEmpty))
      (match onDir with
       | some f => f (FSTree.dir nm sz mt children) (pathJoin dirPath nm)
           (pathRelative rootDir (pathJoin dirPath nm)) depth rest.isEmpty
           dOpen s
       | none => s)) := by
  conv_lhs => rw [walkLoop.eq_def]
  simp only [FSTree.name]

theorem walkLoop_cons_file {σ : Type} (mm : String → String → Bool)
    (rootDir : String) (pats : List String) (onFile : FileCallback σ)
    (onDir : Option (FileCallback σ)) (sort : Option SortMethod)
    (sd : Option SortDirection) (dirPath : String) (nm : String) (sz : Nat)
    (mt : Int) (c : String) (rest : List FSTree) (depth : Nat)
    (dOpen : Nat → Bool) (s : σ) :
    walkLoop mm rootDir pats onFile onDir sort sd dirPath
      (FSTree.file nm sz mt c :: rest) depth dOpen s =
    walkLoop mm rootDir pats onFile onDir sort sd dirPath rest depth dOpen
      (onFile (FSTree.file nm sz mt c) (pathJoin dirPath nm)
        (pathRelative rootDir (pathJoin dirPath nm)) depth rest.isEmpty
        dOpen s) := by
  conv_lhs => rw [walkLoop.eq_def]
  simp only [FSTree.name]

/-- Induction over lists of entries following the recursion of the
(sorting) walk: the step for a directory child may assume the motive for
the prepared listing of the child under any `dirPath`. -/
theorem walk_induction (mm : String → String → Bool) (pats : List String)
    (sort : Option SortMethod) (sd : Option SortDirection)
    (motive : List FSTree → Prop) (h0 : motive [])
    (hdir : ∀ nm sz mt children rest,
      (∀ dirPath, motive (prepareEntries mm pats sort sd dirPath children)) →
      motive rest → motive (FSTree.dir nm sz mt children :: rest))
    (hfile : ∀ nm sz mt c rest, motive rest →
      motive (FSTree.file nm sz mt c :: rest)) :
    ∀ entries, motive entries := by
  have key : ∀ n entries, sizeOf entries ≤ n → motive entries := by
    intro n
    induction n with
    | zero =>
      intro entries h
      cases entries with
      | nil => exact h0
      | cons e rest =>
        exfalso
        simp only [List.cons.sizeOf_spec] at h
        omega
    | succ n ih =>
      intro entries h
      cases entries with
      | nil => exact h0
      | cons e rest =>
        have he1 : 1 ≤ sizeOf e := by
          cases e <;> simp [FSTree.file.sizeOf_spec, FSTree.dir.sizeOf_spec]
            <;> omega
        have hrest : sizeOf rest ≤ n := by
          simp only [List.cons.sizeOf_spec] at h
          omega
        cases e with
        | dir nm sz mt children =>
          refine hdir nm sz mt children rest (fun dirPath => ih _ ?_)
            (ih _ hrest)
          refine le_trans (prepareEntries_sizeOf_le _ _ _ _ _ _) ?_
          simp only [List.cons.sizeOf_spec, FSTree.dir.sizeOf_spec] at h
          omega
        | file nm sz mt c => exact hfile nm sz mt c rest (ih _ hrest)
  exact fun entries => key (sizeOf entries) entries (Nat.le_refl _)

/-- The analogous induction principle for the non-sorting walk. -/
theorem walkOld_induction (mm : String → String → Bool) (pats : List String)
    (motive : List FSTree → Prop) (h0 : motive [])
    (hdir : ∀ nm sz mt children rest,
      (∀ dirPath, motive (filterEntries mm pats dirPath children)) →
      motive rest → motive (FSTree.dir nm sz mt children :: rest))
    (hfile : ∀ nm sz mt c rest, motive rest →
      motive (FSTree.file nm sz mt c :: rest)) :
    ∀ entries, motive entries := by
  have key : ∀ n entries, sizeOf entries ≤ n → motive entries := by
    intro n
    induction n with
    | zero =>
      intro entries h
      cases entries with
      | nil => exact h0
      | cons e rest =>
        exfalso
        simp only [List.cons.sizeOf_spec] at h
        omega
    | succ n ih =>
      intro entries h
      cases entries with
      | nil => exact h0
      | cons e rest =>
        have he1 : 1 ≤ sizeOf e := by
          cases e <;> simp [FSTree.file.sizeOf_spec, FSTree.dir.sizeOf_spec]
            <;> omega
        have hrest : sizeOf rest ≤ n := by
          simp only [List.cons.sizeOf_spec] at h
          omega
        cases e with
        | dir nm sz mt children =>
          refine hdir nm sz mt children rest (fun dirPath => ih _ ?_)
            (ih _ hrest)
          refine le_trans (sizeOf_filter_le _ _) ?_
          simp only [List.cons.sizeOf_spec, FSTree.dir.sizeOf_spec] at h
          omega
        | file nm sz mt c => exact hfile nm sz mt c rest (ih _ hrest)
  exact fun entries => key (sizeOf entries) entries (Nat.le_refl _)

theorem fileVisits_nil (mm : String → String → Bool) (rootDir : String)
    (pats : List String) (sort : Option SortMethod)
    (sd : Option SortDirection) (dirPath : String) :
    fileVisits mm rootDir pats sort sd dirPath [] = [] := by
  simp [fileVisits]

theorem fileVisits_cons_dir (mm : String → String → Bool) (rootDir : String)
    (pats : List String) (sort : Option SortMethod)
    (sd : Option SortDirection) (dirPath nm : String) (sz : Nat) (mt : Int)
    (children rest : List FSTree) :
    fileVisits mm rootDir pats sort sd dirPath
      (FSTree.dir nm sz mt children :: rest) =
    fileVisits mm rootDir pats sort sd (pathJoin dirPath nm)
      (prepareEntries mm pats sort sd (pathJoin dirPath nm) children) ++
    fileVisits mm rootDir pats sort sd dirPath rest := by
  conv_lhs => rw [fileVisits.eq_def]
  simp only [FSTree.name]

theorem fileVisits_cons_file (mm : String → String → Bool) (rootDir : String)
    (pats : List String) (sort : Option SortMethod)
    (sd : Option SortDirection) (dirPath nm : String) (sz : Nat) (mt : Int)
    (c : String) (rest : List FSTree) :
    fileVisits mm rootDir pats sort sd dirPath
      (FSTree.file nm sz mt c :: rest) =
    { entry := FSTree.file nm sz mt c
      fullPath := pathJoin dirPath nm
      relPath := pathRelative rootDir (pathJoin dirPath nm) } ::
    fileVisits mm rootDir pats sort sd dirPath rest := by
  conv_lhs => rw [fileVisits.eq_def]
  simp only [FSTree.name]

/-- A traversal whose per-file callback uses only the visited node and
its paths, with no per-directory callback, folds its state over the file
visits in visit order. -/
theorem walkLoop_content_foldl {σ : Type} (mm : String → String → Bool)
    (rootDir : String) (pats : List String)
    (step : FSTree → String → String → σ → σ) (sort : Option SortMethod)
    (sd : Option SortDirection) :
    ∀ (entries : List FSTree) (dirPath : String) (depth : Nat)
      (dOpen : Nat → Bool) (s : σ),
    (walkLoop mm rootDir pats (fun e fp rp _ _ _ st => step e fp rp st) none
        sort sd dirPath entries depth dOpen s).1
      = (fileVisits mm rootDir pats sort sd dirPath entries).foldl
          (fun st v => step v.entry v.fullPath v.relPath st) s := by
  intro entries
  induction entries using walk_induction mm pats sort sd with
  | h0 =>
    intro dirPath depth dOpen s
    rw [walkLoop_nil, fileVisits_nil]
    rfl
  | hdir nm sz mt children rest ih1 ih2 =>
    intro dirPath depth dOpen s
    rw [walkLoop_cons_dir, fileVisits_cons_dir, List.foldl_append]
    simp only []
    rw [ih2, ih1]
  | hfile nm sz mt c rest ih =>
    intro dirPath depth dOpen s
    rw [walkLoop_cons_file, fileVisits_cons_file, ih]
    rfl

/-- `writeFileContent` folds the content step over its file visits. -/
theorem writeFileContent_foldl (mm : String → String → Bool)
    (options : CodeAtlasConfig) (roots : List FSTree) :
    writeFileContent mm options roots =
      (scanVisits mm options roots).foldl
        (fun st v => contentStep options.maxFileSize
          (options.alwaysIncludeExtensions.getD []) options.fileTemplate
          v.entry v.fullPath v.relPath st)
        ⟨[], [], ""⟩ := by
  unfold writeFileContent walkDir scanVisits
  exact walkLoop_content_foldl mm (options.dir.getD ".")
    (options.ignore.getD [])
    (contentStep options.maxFileSize (options.alwaysIncludeExtensions.getD [])
      options.fileTemplate)
    options.sort options.sortDirection _ _ 0 (fun _ => false) _

/-- Folding the content step partitions the visits by the size policy:
excluded relative paths, included relative paths, and the concatenated
chunks of the included visits. -/
theorem foldl_contentStep (maxF : Option Nat) (alw : List String)
    (tmpl : Option String) :
    ∀ (visits : List FileVisit) (st : RenderResult),
    visits.foldl
        (fun st v => contentStep maxF alw tmpl v.entry v.fullPath v.relPath st)
        st =
      { includedPaths := st.includedPaths ++
          ((visits.filter fun v => !(visitExcluded maxF alw v)).map
            fun v => v.relPath)
        excludedPaths := st.excludedPaths ++
          ((visits.filter fun v => visitExcluded maxF alw v).map
            fun v => v.relPath)
        output := st.output ++
          joinChunks ((visits.filter fun v => !(visitExcluded maxF alw v)).map
            fun v => visitChunk tmpl v) } := by
  intro visits
  induction visits with
  | nil =>
    intro st
    simp [joinChunks]
  | cons v rest ih =>
    intro st
    rw [List.foldl_cons]
    by_cases hx : excludedBySize maxF alw v.entry v.fullPath
    · have hstep : contentStep maxF alw tmpl v.entry v.fullPath v.relPath st =
          { st with excludedPaths := st.excludedPaths ++ [v.relPath] } := by
        unfold contentStep
        rw [if_pos hx]
      rw [hstep, ih]
      simp [List.filter_cons, visitExcluded, hx, List.append_assoc]
    · have hstep : contentStep maxF alw tmpl v.entry v.fullPath v.relPath st =
          { includedPaths := st.includedPaths ++ [v.relPath]
            excludedPaths := st.excludedPaths
            output := st.output ++ visitChunk tmpl v } := by
        unfold contentStep
        rw [if_neg hx]
        rfl
      rw [hstep, ih]
      simp [List.filter_cons, visitExcluded, hx, List.append_assoc, joinChunks,
        String.append_assoc, visitChunk]

/-- C1: with a configured `maxFileSize`, a visited non-ignored file lands
in `excludedPaths` exactly when its size strictly exceeds the limit and
its derived extension is not allow-listed (entries compared lower-cased
with one leading dot stripped); otherwise it lands in `includedPaths` and
its chunk is emitted; with no `maxFileSize`, every visited file is
included. -/
theorem claim_C1 (mm : String → String → Bool) (options : CodeAtlasConfig)
    (roots : List FSTree) :
    (∀ m, options.maxFileSize = some m →
      ((writeFileContent mm options roots).excludedPaths =
        ((scanVisits mm options roots).filter fun v =>
          decide (v.entry.statSize > m) &&
            !((options.alwaysIncludeExtensions.getD []).any fun ext =>
              stripLeadingDot (jsToLower ext) == fileExtension v.fullPath)).map
          fun v => v.relPath) ∧
      ((writeFileContent mm options roots).includedPaths =
        ((scanVisits mm options roots).filter fun v =>
          !(decide (v.entry.statSize > m) &&
            !((options.alwaysIncludeExtensions.getD []).any fun ext =>
              stripLeadingDot (jsToLower ext) ==
                fileExtension v.fullPath))).map fun v => v.relPath) ∧
      ((writeFileContent mm options roots).output =
        joinChunks (((scanVisits mm options roots).filter fun v =>
          !(decide (v.entry.statSize > m) &&
            !((options.alwaysIncludeExtensions.getD []).any fun ext =>
              stripLeadingDot (jsToLower ext) ==
                fileExtension v.fullPath))).map
          fun v => visitChunk options.fileTemplate v))) ∧
    (options.maxFileSize = none →
      (writeFileContent mm options roots).excludedPaths = [] ∧
      (writeFileContent mm options roots).includedPaths =
        (scanVisits mm options roots).map fun v => v.relPath) := by
  constructor
  · intro m hm
    rw [writeFileContent_foldl, foldl_contentStep, hm]
    have hpred : ∀ v : FileVisit,
        visitExcluded (some m) (options.alwaysIncludeExtensions.getD []) v =
        (decide (v.entry.statSize > m) &&
          !((options.alwaysIncludeExtensions.getD []).any fun ext =>
            stripLeadingDot (jsToLower ext) == fileExtension v.fullPath)) := by
      intro v
      rfl
    refine ⟨?_, ?_, ?_⟩ <;> simp only [hpred] <;> rfl
  · intro hm
    rw [writeFileContent_foldl, foldl_contentStep, hm]
    have hpred : ∀ v : FileVisit,
        visitExcluded none (options.alwaysIncludeExtensions.getD []) v =
          false := by
      intro v
      rfl
    constructor
    · simp [hpred]
    · simp [hpred]

/-! ### Relative-path kit (for the included/excluded partition) -/

theorem str_ext {a b : String} (h : a.data = b.data) : a = b := by
  cases a with
  | mk da =>
    cases b with
    | mk db => exact congrArg String.mk h

theorem pathRelative_append (root x : String) :
    pathRelative root (root ++ ("/") ++ x) = x := by
  unfold pathRelative strIsPrefixOf strDropChars
  rw [if_pos]
  · refine str_ext ?_
    show ((root ++ ("/")).data ++ x.data).drop (root ++ ("/")).data.length
      = x.data
    exact List.drop_left _ _
  · rw [List.isPrefixOf_iff_prefix]
    show (root ++ ("/")).data <+: (root ++ ("/")).data ++ x.data
    exact List.prefix_append _ _

theorem pathJoin_dirOf (root : String) (pre : Option String) (nm : String) :
    pathJoin (dirOf root pre) nm = root ++ ("/") ++ relOf pre nm := by
  cases pre with
  | none => rfl
  | some p =>
    show root ++ ("/") ++ p ++ ("/") ++ nm = root ++ ("/") ++ (p ++ ("/") ++ nm)
    rw [String.append_assoc (root ++ ("/")) p, String.append_assoc (root ++ ("/"))]

theorem pathRelative_dirOf (root : String) (pre : Option String)
    (nm : String) :
    pathRelative root (pathJoin (dirOf root pre) nm) = relOf pre nm := by
  rw [pathJoin_dirOf, pathRelative_append]

theorem dirOf_step (root : String) (pre : Option String) (nm : String) :
    dirOf root (some (relOf pre nm)) = pathJoin (dirOf root pre) nm := by
  cases pre with
  | none => rfl
  | some p =>
    show root ++ ("/") ++ (p ++ ("/") ++ nm) = root ++ ("/") ++ p ++ ("/") ++ nm
    rw [String.append_assoc (root ++ ("/")) p, String.append_assoc (root ++ ("/"))]

theorem relOf_data (p nm : String) :
    (relOf (some p) nm).data = p.data ++ '/' :: nm.data := by
  show (p ++ ("/") ++ nm).data = p.data ++ '/' :: nm.data
  show (p.data ++ ('/' :: [])) ++ nm.data = p.data ++ '/' :: nm.data
  rw [List.append_assoc]
  rfl

theorem slash_code_inj {a b u v : List Char} (ha : '/' ∉ a) (hb : '/' ∉ b)
    (h : a ++ '/' :: u = b ++ '/' :: v) : a = b ∧ u = v := by
  induction a generalizing b with
  | nil =>
    cases b with
    | nil => simpa using h
    | cons y ys =>
      exfalso
      rw [List.nil_append] at h
      injection h with h1 h2
      exact hb (h1 ▸ List.mem_cons_self y ys)
  | cons x xs ih =>
    cases b with
    | nil =>
      exfalso
      rw [List.nil_append] at h
      injection h with h1 h2
      exact ha (h1.symm ▸ List.mem_cons_self x xs)
    | cons y ys =>
      rw [List.cons_append, List.cons_append] at h
      injection h with h1 h2
      have ha' : '/' ∉ xs := fun hm => ha (List.mem_cons_of_mem x hm)
      have hb' : '/' ∉ ys := fun hm => hb (List.mem_cons_of_mem y hm)
      obtain ⟨e1, e2⟩ := ih ha' hb' h2
      exact ⟨by rw [h1, e1], e2⟩

theorem prefix_cancel_left {P l₁ l₂ : List Char} (h : P ++ l₁ <+: P ++ l₂) :
    l₁ <+: l₂ := by
  obtain ⟨t, ht⟩ := h
  rw [List.append_assoc] at ht
  exact ⟨t, List.append_cancel_left ht⟩

/-- Names with no separator: if `a ++ "/"` is a prefix of `b ++ "/" ++ t`
at character level, then `a = b`. -/
theorem slash_prefix_eq {a b : List Char} {t : List Char} (ha : '/' ∉ a)
    (hb : '/' ∉ b) (h : a ++ ['/'] <+: b ++ '/' :: t) : a = b := by
  obtain ⟨w, hw⟩ := h
  rw [List.append_assoc] at hw
  exact (slash_code_inj ha hb hw).1

theorem validName_no_slash {nm : String} (h : validName nm = true) :
    '/' ∉ nm.data := by
  unfold validName at h
  intro hm
  have := (Bool.and_eq_true _ _).mp h
  have h2 := this.2
  rw [Bool.not_eq_true', ← Bool.not_eq_true] at h2
  exact h2 (by
    rw [List.contains_eq_any_beq]
    exact List.any_eq_true.mpr ⟨'/', hm, by simp⟩)

theorem relOf_inj (pre : Option String) {n1 n2 : String}
    (h : relOf pre n1 = relOf pre n2) : n1 = n2 := by
  cases pre with
  | none => exact h
  | some p =>
    have hd := congrArg String.data h
    rw [relOf_data, relOf_data] at hd
    have hd2 : '/' :: n1.data = '/' :: n2.data := List.append_cancel_left hd
    injection hd2 with h1 h2
    exact str_ext h2

/-- The character prefix contributed by the relative position `pre`. -/
def preData : Option String → List Char
  | none => []
  | some p => p.data ++ ['/']

theorem append_slash_data (x : String) :
    (x ++ ("/")).data = x.data ++ ['/'] := rfl

theorem relOf_data' (pre : Option String) (nm : String) :
    (relOf pre nm).data = preData pre ++ nm.data := by
  cases pre with
  | none => rfl
  | some p =>
    rw [relOf_data]
    show p.data ++ '/' :: nm.data = (p.data ++ ['/']) ++ nm.data
    rw [List.append_assoc]
    rfl

theorem relOf_slash_data (pre : Option String) (nm : String) :
    (relOf pre nm ++ ("/")).data = preData pre ++ (nm.data ++ ['/']) := by
  rw [append_slash_data, relOf_data', List.append_assoc]

/-- A `relOf`-path of a directory is never a prefix of a sibling's
`relOf`-path when the sibling's name has no separator. -/
theorem dir_prefix_file_absurd {pre : Option String} {y x : String}
    (hx : '/' ∉ x.data)
    (h : (relOf pre y ++ ("/")).data <+: (relOf pre x).data) : False := by
  rw [relOf_slash_data, relOf_data'] at h
  have h2 := prefix_cancel_left h
  obtain ⟨t, ht⟩ := h2
  apply hx
  rw [← ht]
  simp

/-- Two subtree prefixes over distinct separator-free names cannot sit on
the same path. -/
theorem dir_prefix_dir_eq {pre : Option String} {x y : String}
    {l : List Char} (hx : '/' ∉ x.data) (hy : '/' ∉ y.data)
    (h1 : (relOf pre x ++ ("/")).data <+: l)
    (h2 : (relOf pre y ++ ("/")).data <+: l) : x = y := by
  rw [relOf_slash_data] at h1 h2
  rcases List.prefix_or_prefix_of_prefix h1 h2 with h | h
  · have h3 := prefix_cancel_left h
    obtain ⟨w, hw⟩ := h3
    have hw2 : x.data ++ '/' :: w = y.data ++ '/' :: [] := by
      rw [← hw, List.append_assoc]
      rfl
    exact str_ext (slash_code_inj hx hy hw2).1
  · have h3 := prefix_cancel_left h
    obtain ⟨w, hw⟩ := h3
    have hw2 : y.data ++ '/' :: w = x.data ++ '/' :: [] := by
      rw [← hw, List.append_assoc]
      rfl
    exact (str_ext (slash_code_inj hy hx hw2).1).symm

theorem wellFormed_dir_unpack {nm : String} {sz : Nat} {mt : Int}
    {children : List FSTree}
    (h : wellFormed (FSTree.dir nm sz mt children) = true) :
    validName nm = true ∧ (children.map FSTree.name).Nodup ∧
      wellFormedList children = true := by
  rw [wellFormed] at h
  rcases (Bool.and_eq_true _ _).mp h with ⟨h1, h3⟩
  rcases (Bool.and_eq_true _ _).mp h1 with ⟨h4, h5⟩
  exact ⟨h4, of_decide_eq_true h5, h3⟩

theorem wellFormed_name {e : FSTree} (h : wellFormed e = true) :
    validName e.name = true := by
  cases e with
  | file nm sz mt c => exact h
  | dir nm sz mt children => exact (wellFormed_dir_unpack h).1

theorem wellFormedList_mem {l : List FSTree} {e : FSTree}
    (h : wellFormedList l = true) (he : e ∈ l) : wellFormed e = true := by
  induction l with
  | nil => exact absurd he (List.not_mem_nil e)
  | cons c cs ih =>
    rw [wellFormedList] at h
    rcases (Bool.and_eq_true _ _).mp h with ⟨h1, h2⟩
    rcases List.mem_cons.mp he with rfl | hm
    · exact h1
    · exact ih h2 hm

theorem prepareEntries_subset {mm : String → String → Bool}
    {pats : List String} {sort : Option SortMethod}
    {sd : Option SortDirection} {dirPath : String} {e : FSTree}
    {l : List FSTree} (h : e ∈ prepareEntries mm pats sort sd dirPath l) :
    e ∈ l := by
  unfold prepareEntries at h
  have h2 := (sortEntries_perm _ _ _ _).mem_iff.mp h
  exact List.mem_of_mem_filter h2

theorem prepareEntries_names_nodup {mm : String → String → Bool}
    {pats : List String} {sort : Option SortMethod}
    {sd : Option SortDirection} {dirPath : String} {l : List FSTree}
    (h : (l.map FSTree.name).Nodup) :
    ((prepareEntries mm pats sort sd dirPath l).map FSTree.name).Nodup := by
  unfold prepareEntries
  have hp := (sortEntries_perm
    (l.filter fun entry =>
      !(shouldIgnore mm (pathJoin dirPath entry.name) pats))
    dirPath sort sd).map FSTree.name
  refine hp.nodup_iff.mpr ?_
  exact ((List.filter_sublist l).map FSTree.name).nodup h

/-- Every file visit is owned by one top-level entry: a file entry with
that exact relative path, or a directory entry whose subtree prefix
starts the visit's relative path. -/
theorem fileVisits_shape (mm : String → String → Bool) (pats : List String)
    (sort : Option SortMethod) (sd : Option SortDirection) (root : String) :
    ∀ (entries : List FSTree) (pre : Option String) (v : FileVisit),
    v ∈ fileVisits mm root pats sort sd (dirOf root pre) entries →
    ∃ e ∈ entries, (e.isDirectory = false ∧ v.relPath = relOf pre e.name) ∨
      (e.isDirectory = true ∧
        (relOf pre e.name ++ ("/")).data <+: v.relPath.data) := by
  intro entries
  induction entries using walk_induction mm pats sort sd with
  | h0 =>
    intro pre v hv
    rw [fileVisits_nil] at hv
    exact absurd hv (List.not_mem_nil v)
  | hdir nm sz mt children rest ih1 ih2 =>
    intro pre v hv
    rw [fileVisits_cons_dir] at hv
    rcases List.mem_append.mp hv with hsub | hrest
    · rw [← dirOf_step root pre nm] at hsub
      obtain ⟨e', he', hsh⟩ := ih1 (dirOf root (some (relOf pre nm)))
        (some (relOf pre nm)) v hsub
      refine ⟨FSTree.dir nm sz mt children, List.mem_cons_self _ _,
        Or.inr ⟨rfl, ?_⟩⟩
      rcases hsh with ⟨hf, heq⟩ | ⟨hd, hpre⟩
      · rw [heq]
        refine ⟨e'.name.data, ?_⟩
        simp [relOf_slash_data, relOf_data, relOf_data', preData,
          FSTree.name, List.append_assoc]
      · refine List.IsPrefix.trans ?_ hpre
        refine ⟨e'.name.data ++ ['/'], ?_⟩
        simp [relOf_slash_data, relOf_data, relOf_data', preData,
          FSTree.name, List.append_assoc]
    · obtain ⟨e, he, hsh⟩ := ih2 pre v hrest
      exact ⟨e, List.mem_cons_of_mem _ he, hsh⟩
  | hfile nm sz mt c rest ih =>
    intro pre v hv
    rw [fileVisits_cons_file] at hv
    rcases List.mem_cons.mp hv with hv0 | hrest
    · refine ⟨FSTree.file nm sz mt c, List.mem_cons_self _ _,
        Or.inl ⟨rfl, ?_⟩⟩
      rw [hv0]
      show pathRelative root (pathJoin (dirOf root pre) nm) = relOf pre nm
      exact pathRelative_dirOf root pre nm
    · obtain ⟨e, he, hsh⟩ := ih pre v hrest
      exact ⟨e, List.mem_cons_of_mem _ he, hsh⟩

/-- Every visit below the position `p` carries `p ++ "/"` as a prefix of
its relative path. -/
theorem fileVisits_sub_prefix (mm : String → String → Bool)
    (pats : List String) (sort : Option SortMethod)
    (sd : Option SortDirection) (root : String) (entries : List FSTree)
    (p : String) (v : FileVisit)
    (hv : v ∈ fileVisits mm root pats sort sd (dirOf root (some p)) entries) :
    (p ++ ("/")).data <+: v.relPath.data := by
  obtain ⟨e, he, hsh⟩ := fileVisits_shape mm pats sort sd root entries
    (some p) v hv
  rcases hsh with ⟨hf, heq⟩ | ⟨hd, hpre⟩
  · rw [heq]
    refine ⟨e.name.data, ?_⟩
    simp [relOf_data, append_slash_data, List.append_assoc]
  · refine List.IsPrefix.trans ?_ hpre
    refine ⟨e.name.data ++ ['/'], ?_⟩
    simp [relOf_slash_data, relOf_data, append_slash_data, preData,
      List.append_assoc]

/-- Relative paths of the file visits of a well-formed listing are
pairwise distinct. -/
theorem fileVisits_nodup (mm : String → String → Bool) (pats : List String)
    (sort : Option SortMethod) (sd : Option SortDirection) (root : String) :
    ∀ (entries : List FSTree) (pre : Option String),
    (entries.map FSTree.name).Nodup →
    (∀ e ∈ entries, wellFormed e = true) →
    ((fileVisits mm root pats sort sd (dirOf root pre) entries).map
      (fun v => v.relPath)).Nodup := by
  intro entries
  induction entries using walk_induction mm pats sort sd with
  | h0 =>
    intro pre h1 h2
    rw [fileVisits_nil]
    exact List.nodup_nil
  | hfile nm sz mt c rest ih =>
    intro pre h1 h2
    have hval : validName nm = true :=
      wellFormed_name (h2 _ (List.mem_cons_self _ _))
    simp only [List.map_cons, FSTree.name] at h1
    obtain ⟨hnotin, hrestn⟩ := List.nodup_cons.mp h1
    rw [fileVisits_cons_file, pathRelative_dirOf, List.map_cons]
    refine List.nodup_cons.mpr ⟨?_, ih pre hrestn
      (fun e he => h2 e (List.mem_cons_of_mem _ he))⟩
    intro hmem
    obtain ⟨v', hv', heq⟩ := List.mem_map.mp hmem
    obtain ⟨e', he', hsh⟩ := fileVisits_shape mm pats sort sd root rest pre
      v' hv'
    have hne : nm ≠ e'.name := by
      intro he
      exact hnotin (he ▸ List.mem_map_of_mem FSTree.name he')
    rcases hsh with ⟨hf, heq2⟩ | ⟨hd2, hpre2⟩
    · rw [heq2] at heq
      exact hne (relOf_inj pre heq.symm)
    · rw [heq] at hpre2
      exact dir_prefix_file_absurd (validName_no_slash hval) hpre2
  | hdir nm sz mt children rest ih1 ih2 =>
    intro pre h1 h2
    have hwf := h2 _ (List.mem_cons_self _ _)
    obtain ⟨hval, hcn, hcl⟩ := wellFormed_dir_unpack hwf
    simp only [List.map_cons, FSTree.name] at h1
    obtain ⟨hnotin, hrestn⟩ := List.nodup_cons.mp h1
    rw [fileVisits_cons_dir, List.map_append]
    refine List.nodup_append.mpr ⟨?_, ?_, ?_⟩
    · rw [← dirOf_step root pre nm]
      exact ih1 (dirOf root (some (relOf pre nm))) (some (relOf pre nm))
        (prepareEntries_names_nodup hcn)
        (fun e he => wellFormedList_mem hcl (prepareEntries_subset he))
    · exact ih2 pre hrestn (fun e he => h2 e (List.mem_cons_of_mem _ he))
    · intro r hr hr'
      obtain ⟨v, hv, hveq⟩ := List.mem_map.mp hr
      obtain ⟨v', hv', heq⟩ := List.mem_map.mp hr'
      rw [← dirOf_step root pre nm] at hv
      have hpref := fileVisits_sub_prefix mm pats sort sd root _
        (relOf pre nm) v hv
      obtain ⟨e', he', hsh⟩ := fileVisits_shape mm pats sort sd root rest pre
        v' hv'
      have hne : nm ≠ e'.name := by
        intro he
        exact hnotin (he ▸ List.mem_map_of_mem FSTree.name he')
      have hv'valid : '/' ∉ e'.name.data :=
        validName_no_slash (wellFormed_name (h2 e' (List.mem_cons_of_mem _ he')))
      have hnmvalid : '/' ∉ nm.data := validName_no_slash hval
      have heq' : v'.relPath = v.relPath := by rw [heq, hveq]
      rcases hsh with ⟨hf, heq2⟩ | ⟨hd2, hpre2⟩
      · rw [heq', ] at heq2
        rw [heq2] at hpref
        exact dir_prefix_file_absurd hv'valid hpref
      · rw [heq'] at hpre2
        exact hne (dir_prefix_dir_eq hnmvalid hv'valid hpref hpre2)

/-- The relative paths of one scan's file visits are pairwise distinct
for a well-formed scan root. -/
theorem scanVisits_nodup (mm : String → String → Bool)
    (options : CodeAtlasConfig) (roots : List FSTree)
    (h : wellFormedRoots roots = true) :
    ((scanVisits mm options roots).map (fun v => v.relPath)).Nodup := by
  unfold scanVisits
  unfold wellFormedRoots at h
  rcases (Bool.and_eq_true _ _).mp h with ⟨h1, h2⟩
  have hn := of_decide_eq_true h1
  exact fileVisits_nodup mm (options.ignore.getD []) options.sort
    options.sortDirection (options.dir.getD ".")
    (prepareEntries mm (options.ignore.getD []) options.sort
      options.sortDirection (options.dir.getD ".") roots) none
    (prepareEntries_names_nodup hn)
    (fun e he => wellFormedList_mem h2 (prepareEntries_subset he))

/-- C2: the two returned sequences are disjoint and together carry
exactly the relative paths of the visited non-ignored files, for any
well-formed scan root. -/
theorem claim_C2 (mm : String → String → Bool) (options : CodeAtlasConfig)
    (roots : List FSTree) (h : wellFormedRoots roots = true) :
    List.Disjoint (writeFileContent mm options roots).includedPaths
        (writeFileContent mm options roots).excludedPaths ∧
      ((writeFileContent mm options roots).includedPaths ++
        (writeFileContent mm options roots).excludedPaths).Perm
        ((scanVisits mm options roots).map fun v => v.relPath) := by
  have hrun := writeFileContent_foldl mm options roots
  rw [foldl_contentStep] at hrun
  have hinc : (writeFileContent mm options roots).includedPaths =
      ((scanVisits mm options roots).filter fun v =>
        !(visitExcluded options.maxFileSize
          (options.alwaysIncludeExtensions.getD []) v)).map
        fun v => v.relPath := by
    rw [hrun]
    simp
  have hexc : (writeFileContent mm options roots).excludedPaths =
      ((scanVisits mm options roots).filter fun v =>
        visitExcluded options.maxFileSize
          (options.alwaysIncludeExtensions.getD []) v).map
        fun v => v.relPath := by
    rw [hrun]
    simp
  have hperm0 := List.filter_append_perm
    (fun v => !(visitExcluded options.maxFileSize
      (options.alwaysIncludeExtensions.getD []) v))
    (scanVisits mm options roots)
  have hperm : (((scanVisits mm options roots).filter fun v =>
      !(visitExcluded options.maxFileSize
        (options.alwaysIncludeExtensions.getD []) v)) ++
      ((scanVisits mm options roots).filter fun v =>
        visitExcluded options.maxFileSize
          (options.alwaysIncludeExtensions.getD []) v)).Perm
      (scanVisits mm options roots) := by
    refine List.Perm.trans ?_ hperm0
    refine List.Perm.append (List.Perm.refl _) ?_
    rw [List.filter_congr]
    intro v hv
    rw [Bool.not_not]
  have hperm2 : ((writeFileContent mm options roots).includedPaths ++
      (writeFileContent mm options roots).excludedPaths).Perm
      ((scanVisits mm options roots).map fun v => v.relPath) := by
    rw [hinc, hexc, ← List.map_append]
    exact hperm.map _
  refine ⟨?_, hperm2⟩
  have hnd : (((writeFileContent mm options roots).includedPaths ++
      (writeFileContent mm options roots).excludedPaths)).Nodup :=
    hperm2.nodup_iff.mpr (scanVisits_nodup mm options roots h)
  exact (List.nodup_append.mp hnd).2.2

/-- Witness for C1 at a concrete scan: limit 1000, files of sizes 1 and
10000. -/
theorem claim_C1_witness :
    cfgMax.maxFileSize = some 1000 ∧
    ((writeFileContent mm0 cfgMax rootsSmallBig).excludedPaths =
      ((scanVisits mm0 cfgMax rootsSmallBig).filter fun v =>
        decide (v.entry.statSize > 1000) &&
          !((cfgMax.alwaysIncludeExtensions.getD []).any fun ext =>
            stripLeadingDot (jsToLower ext) == fileExtension v.fullPath)).map
        fun v => v.relPath) :=
  ⟨rfl, ((claim_C1 mm0 cfgMax rootsSmallBig).1 1000 rfl).1⟩

/-- Witness for C2 at the same concrete scan. -/
theorem claim_C2_witness :
    wellFormedRoots rootsSmallBig = true ∧
    (List.Disjoint (writeFileContent mm0 cfgMax rootsSmallBig).includedPaths
        (writeFileContent mm0 cfgMax rootsSmallBig).excludedPaths ∧
      ((writeFileContent mm0 cfgMax rootsSmallBig).includedPaths ++
        (writeFileContent mm0 cfgMax rootsSmallBig).excludedPaths).Perm
        ((scanVisits mm0 cfgMax rootsSmallBig).map fun v => v.relPath)) :=
  ⟨by decide, claim_C2 mm0 cfgMax rootsSmallBig (by decide)⟩

theorem statsCompare_imp_sortedRel {m : SortMethod} (dirn : SortDirection)
    (hm : m = SortMethod.size ∨ m = SortMethod.modified) (a b : FSTree)
    (h : statsCompare m (sortMultiplier dirn) (a, a.statSize, a.statMtimeMs)
      (b, b.statSize, b.statMtimeMs) ≤ 0) :
    sortedRel m dirn a b := by
  rcases hm with rfl | rfl <;> cases dirn <;> cases a <;> cases b <;>
    simp [statsCompare, directoriesFirst, sortMultiplier, sortedRel,
      dirOrderLE, fileOrderLE, statLE, FSTree.isDirectory, FSTree.statSize,
      FSTree.statMtimeMs] at h ⊢ <;> omega

theorem nameTypeCompare_imp_sortedRel {m : SortMethod} (dirn : SortDirection)
    (hm : m = SortMethod.name ∨ m = SortMethod.type) (a b : FSTree)
    (h : nameTypeCompare m (sortMultiplier dirn) a b ≤ 0) :
    sortedRel m dirn a b := by
  rcases hm with rfl | rfl
  · cases dirn <;> cases a <;> cases b <;>
      simp [nameTypeCompare, directoriesFirst, sortMultiplier, sortedRel,
        dirOrderLE, fileOrderLE, nameLE, FSTree.isDirectory, FSTree.name]
        at h ⊢ <;> omega
  · cases dirn <;> cases a <;> cases b <;>
      simp only [nameTypeCompare, directoriesFirst, sortMultiplier,
        sortedRel, dirOrderLE, fileOrderLE, nameLE, typeLE, extLower,
        FSTree.isDirectory, FSTree.name, ne_eq, reduceCtorEq,
        not_false_eq_true, reduceIte, Bool.false_eq_true, Bool.true_eq_false,
        not_true_eq_false, ite_false, ite_true, reduceIte] at h ⊢
    case asc.file.file na sa ma ca nb sb mb cb =>
      by_cases he : jsToLower (extname na) = jsToLower (extname nb)
      · rw [if_neg (by simp [he])] at h
        rw [one_mul] at h
        exact Or.inr ⟨he, h⟩
      · rw [if_pos ⟨trivial, he⟩, one_mul] at h
        refine Or.inl ?_
        rcases lt_or_eq_of_le h with hlt | heq0
        · exact hlt
        · exact absurd ((localeCompare_eq_zero_iff _ _).mp heq0) he
    case asc.dir.dir na sa ma ca nb sb mb cb =>
      rw [one_mul] at h
      exact h
    case desc.file.file na sa ma ca nb sb mb cb =>
      by_cases he : jsToLower (extname na) = jsToLower (extname nb)
      · rw [if_neg (by simp [he])] at h
        refine Or.inr ⟨he, by omega⟩
      · rw [if_pos ⟨trivial, he⟩] at h
        refine Or.inl ?_
        have h2 : 0 ≤ localeCompare (jsToLower (extname na))
            (jsToLower (extname nb)) := by omega
        rcases lt_or_eq_of_le h2 with hlt | heq0
        · exact hlt
        · exact absurd ((localeCompare_eq_zero_iff _ _).mp heq0.symm) he
    case desc.dir.dir na sa ma ca nb sb mb cb =>
      omega
    all_goals omega

/-- C3 (amended): `sortEntries` permutes the listing into an order that
places every directory before every file and resolves same-kind pairs by
name (`name`/`type` methods) or by the stat value (`size`/`modified`
methods, directories included), with `type` using the lower-cased
extension as primary key and name as tie-break, and `desc` reversing the
within-kind comparisons. -/
theorem claim_C3 (entries : List FSTree) (dirPath : String)
    (sort : Option SortMethod) (sd : Option SortDirection) :
    (sortEntries entries dirPath sort sd).Perm entries ∧
    (sortEntries entries dirPath sort sd).Pairwise
      (sortedRel (sort.getD SortMethod.name) (sd.getD SortDirection.asc)) := by
  refine ⟨sortEntries_perm _ _ _ _, ?_⟩
  unfold sortEntries
  split
  case isTrue hm =>
    have hs := jsSortBy_pairwise
      (statsCompare (sort.getD SortMethod.name)
        (sortMultiplier (sd.getD SortDirection.asc)))
      (statsCompare_neg _ _)
      (fun a b c => statsCompare_trans _ (sortMultiplier_cases _) a b c)
      (entries.map fun entry => (entry, entry.statSize, entry.statMtimeMs))
    rw [List.pairwise_map]
    refine List.Pairwise.imp_of_mem ?_ hs
    intro p q hp hq hr
    obtain ⟨ep, hep, rfl⟩ := List.mem_map.mp ((jsSortBy_perm _ _).mem_iff.mp hp)
    obtain ⟨eq', heq, rfl⟩ := List.mem_map.mp ((jsSortBy_perm _ _).mem_iff.mp hq)
    exact statsCompare_imp_sortedRel _ hm ep eq' hr
  case isFalse hm =>
    have hm2 : sort.getD SortMethod.name = SortMethod.name ∨
        sort.getD SortMethod.name = SortMethod.type := by
      cases hx : sort.getD SortMethod.name
      · exact Or.inl rfl
      · exact absurd (Or.inl hx) hm
      · exact absurd (Or.inr hx) hm
      · exact Or.inr rfl
    have hs := jsSortBy_pairwise
      (nameTypeCompare (sort.getD SortMethod.name)
        (sortMultiplier (sd.getD SortDirection.asc)))
      (nameTypeCompare_neg _ _)
      (fun a b c => nameTypeCompare_trans _ (sortMultiplier_cases _) a b c)
      entries
    refine List.Pairwise.imp_of_mem ?_ hs
    intro a b ha hb hr
    exact nameTypeCompare_imp_sortedRel _ hm2 a b hr

/-- Counterexample to C3 as stated: under `sort = size`, two directories
are ordered by their stat sizes, not by name — the smaller-stat directory
`b` precedes directory `a` even ascending by name would demand the
opposite. -/
theorem claim_C3_counterexample :
    (sortEntries dirsBySize "." (some SortMethod.size)
      (some SortDirection.asc)).map FSTree.name = ["b", "a"] ∧
    ¬ List.Pairwise (fun x y : String => localeCompare x y ≤ 0)
      ((sortEntries dirsBySize "." (some SortMethod.size)
        (some SortDirection.asc)).map FSTree.name) := by
  constructor
  · decide
  · decide

/-- Witness for the amended C3 at the concrete directory pair. -/
theorem claim_C3_witness :
    (sortEntries dirsBySize "." (some SortMethod.size)
      (some SortDirection.asc)).Pairwise
      (sortedRel SortMethod.size SortDirection.asc) :=
  (claim_C3 dirsBySize "." (some SortMethod.size)
    (some SortDirection.asc)).2

/-- C7: sorting files by `type` ascending orders them by lower-cased
extension with name as tie-break; in particular `[script.ts, style.css,
data.json]` sorts to `[style.css, data.json, script.ts]`. -/
theorem claim_C7 (entries : List FSTree) (dirPath : String)
    (h : ∀ e ∈ entries, e.isDirectory = false) :
    (sortEntries entries dirPath (some SortMethod.type)
        (some SortDirection.asc)).Perm entries ∧
    (sortEntries entries dirPath (some SortMethod.type)
        (some SortDirection.asc)).Pairwise (typeLE SortDirection.asc) ∧
    (sortEntries rootsTypeSort "." (some SortMethod.type)
        (some SortDirection.asc)).map FSTree.name =
      ["style.css", "data.json", "script.ts"] := by
  refine ⟨sortEntries_perm _ _ _ _, ?_, by decide⟩
  have hs := jsSortBy_pairwise
    (nameTypeCompare SortMethod.type (sortMultiplier SortDirection.asc))
    (nameTypeCompare_neg _ _)
    (fun a b c => nameTypeCompare_trans _ (sortMultiplier_cases _) a b c)
    entries
  have hperm : (sortEntries entries dirPath (some SortMethod.type)
      (some SortDirection.asc)).Perm entries := sortEntries_perm _ _ _ _
  have hsort : sortEntries entries dirPath (some SortMethod.type)
      (some SortDirection.asc) = jsSortBy
      (nameTypeCompare SortMethod.type (sortMultiplier SortDirection.asc))
      entries := by
    unfold sortEntries
    rfl
  rw [hsort]
  refine List.Pairwise.imp_of_mem ?_ hs
  intro a b ha hb hr
  have ha' : a.isDirectory = false :=
    h a ((jsSortBy_perm _ _).mem_iff.mp ha)
  have hb' : b.isDirectory = false :=
    h b ((jsSortBy_perm _ _).mem_iff.mp hb)
  have hsr := nameTypeCompare_imp_sortedRel SortDirection.asc
    (Or.inr rfl) a b hr
  unfold sortedRel at hsr
  rw [ha', hb'] at hsr
  exact hsr

/-- Witness for C7 at the concrete three-file listing. -/
theorem claim_C7_witness :
    (∀ e ∈ rootsTypeSort, e.isDirectory = false) ∧
    (sortEntries rootsTypeSort "." (some SortMethod.type)
        (some SortDirection.asc)).Pairwise (typeLE SortDirection.asc) :=
  ⟨by decide, (claim_C7 rootsTypeSort "." (by decide)).2.1⟩

/-! ### Extension derivation (C6) -/

theorem takeWhile_append_stop {p : Char → Bool} {xs ys : List Char}
    {y : Char} (hxs : ∀ x ∈ xs, p x = true) (hy : p y = false) :
    (xs ++ y :: ys).takeWhile p = xs := by
  induction xs with
  | nil => simp [List.takeWhile_cons, hy]
  | cons x xs ih =>
    rw [List.cons_append, List.takeWhile_cons,
      hxs x (List.mem_cons_self _ _), if_pos rfl]
    rw [ih (fun a ha => hxs a (List.mem_cons_of_mem _ ha))]

theorem takeWhile_dot_lt {l : List Char} (h : '.' ∈ l) :
    (l.takeWhile fun c => c ≠ '.').length < l.length := by
  induction l with
  | nil => exact absurd h (List.not_mem_nil _)
  | cons x xs ih =>
    by_cases hx : x = '.'
    · subst hx
      simp [List.takeWhile_cons]
    · rw [List.takeWhile_cons, if_pos (by simp [hx])]
      have hxs : '.' ∈ xs := by
        rcases List.mem_cons.mp h with h1 | h1
        · exact absurd h1.symm hx
        · exact h1
      simpa using Nat.succ_lt_succ (ih hxs)

theorem takeWhile_no_dot {l : List Char} (h : '.' ∉ l) :
    (l.takeWhile fun c => c ≠ '.') = l := by
  induction l with
  | nil => rfl
  | cons x xs ih =>
    have hx : x ≠ '.' := fun he => h (he ▸ List.mem_cons_self _ _)
    rw [List.takeWhile_cons, if_pos (by simp [hx])]
    rw [ih (fun hm => h (List.mem_cons_of_mem _ hm))]

/-- Below a joined path, the basename is the entry name itself when the
name carries no separator. -/
theorem basenameChars_join (dirPath nm : String) (h : '/' ∉ nm.data) :
    basenameChars ((pathJoin dirPath nm).data) = nm.data := by
  unfold basenameChars
  have hdata : (pathJoin dirPath nm).data =
      (dirPath.data ++ ['/']) ++ nm.data := by
    show ((dirPath ++ ("/")) ++ nm).data = (dirPath.data ++ ['/']) ++ nm.data
    rfl
  rw [hdata, List.reverse_append]
  have hrev : nm.data.reverse ++ (dirPath.data ++ ['/']).reverse =
      nm.data.reverse ++ ('/' :: dirPath.data.reverse) := by
    rw [List.reverse_append]
    rfl
  rw [hrev, takeWhile_append_stop, List.reverse_reverse]
  · intro x hx
    have : x ∈ nm.data := List.mem_reverse.mp hx
    simp
    intro he
    exact absurd (he ▸ this) h
  · simp

theorem takeWhile_append_of_dot {xs : List Char} (ys : List Char)
    (h : '.' ∈ xs) :
    ((xs ++ ys).takeWhile fun c => c ≠ '.') =
      xs.takeWhile fun c => c ≠ '.' := by
  induction xs with
  | nil => exact absurd h (List.not_mem_nil _)
  | cons x xs ih =>
    by_cases hx : x = '.'
    · subst hx
      simp [List.takeWhile_cons]
    · have hxs : '.' ∈ xs := by
        rcases List.mem_cons.mp h with h1 | h1
        · exact absurd h1.symm hx
        · exact h1
      rw [List.cons_append, List.takeWhile_cons, if_pos (by simp [hx]),
        List.takeWhile_cons, if_pos (by simp [hx]), ih hxs]

theorem extnameChars_dot {c : Char} {rest : List Char} (h : '.' ∈ rest) :
    extnameChars (c :: rest) =
      '.' :: ((c :: rest).reverse.takeWhile fun x => x ≠ '.').reverse := by
  have hrev : (c :: rest).reverse = rest.reverse ++ [c] := by simp
  have hsplit : ((c :: rest).reverse.takeWhile fun x => x ≠ '.') =
      rest.reverse.takeWhile fun x => x ≠ '.' := by
    rw [hrev]
    exact takeWhile_append_of_dot [c] (List.mem_reverse.mpr h)
  have hlt := takeWhile_dot_lt (List.mem_reverse.mpr h)
  unfold extnameChars
  simp only [List.length_reverse] at hlt
  rw [if_neg, if_neg]
  · rw [hsplit, hrev]
    simp only [List.length_append, List.length_cons, List.length_nil,
      List.length_reverse]
    omega
  · rw [hsplit, hrev]
    simp only [List.length_append, List.length_cons, List.length_nil,
      List.length_reverse]
    omega

theorem extnameChars_no_dot {c : Char} {rest : List Char}
    (h : '.' ∉ rest) : extnameChars (c :: rest) = [] := by
  have hrev : (c :: rest).reverse = rest.reverse ++ [c] := by simp
  by_cases hc : c = '.'
  · have hsplit : ((c :: rest).reverse.takeWhile fun x => x ≠ '.') =
        rest.reverse := by
      rw [hrev, hc]
      rw [takeWhile_append_stop]
      · intro x hx
        have hxm : x ∈ rest := List.mem_reverse.mp hx
        simp
        intro he
        exact absurd (he ▸ hxm) h
      · simp
    unfold extnameChars
    rw [hsplit]
    rw [if_neg, if_pos]
    · rw [hrev]
      simp
    · rw [hrev]
      simp only [List.length_append, List.length_cons, List.length_nil,
        List.length_reverse]
      omega
  · have hnd : '.' ∉ (c :: rest).reverse := by
      rw [List.mem_reverse]
      intro hm
      rcases List.mem_cons.mp hm with h1 | h1
      · exact hc h1.symm
      · exact h h1
    unfold extnameChars
    rw [takeWhile_no_dot hnd, if_pos rfl]

theorem contains_iff_mem_char {l : List Char} {c : Char} :
    l.contains c = true ↔ c ∈ l := by
  induction l with
  | nil => simp
  | cons x xs ih => simp

/-- C6 (amended): for every entry name without a separator, the derived
extension of the joined path is the lower-casing of the characters after
the final `.` of the name, except that it is empty when the name has no
`.` or its only `.` is the leading character (dotfiles such as
`.bashrc`). -/
theorem claim_C6 (dirPath nm : String) (h : '/' ∉ nm.data) :
    fileExtension (pathJoin dirPath nm) = amendedExtSpec nm := by
  unfold fileExtension extname
  rw [basenameChars_join dirPath nm h]
  unfold amendedExtSpec
  cases hd : nm.data with
  | nil =>
    simp [extnameChars, strDropChars, jsToLower]
  | cons c rest =>
    have hdrop : (c :: rest).drop 1 = rest := rfl
    rw [hdrop]
    by_cases hr : '.' ∈ rest
    · rw [extnameChars_dot hr]
      rw [if_pos (contains_iff_mem_char.mpr hr)]
      rfl
    · rw [extnameChars_no_dot hr]
      rw [if_neg (fun hc => hr (contains_iff_mem_char.mp hc))]
      rfl

/-- Counterexample to C6 as stated: the dotfile `.bashrc` has derived
extension `""` in the content pass, while "the characters after the final
dot, lower-cased" would be `"bashrc"`; the default emission renders a
bare fence. -/
theorem claim_C6_counterexample :
    fileExtension (pathJoin "." ".bashrc") = "" ∧
    extAfterFinalDotSpec ".bashrc" = "bashrc" ∧
    ("" : String) ≠ "bashrc" := by
  refine ⟨by decide, by decide, by decide⟩

/-- Witness for the amended C6 at the same dotfile. -/
theorem claim_C6_witness :
    ('/' ∉ (".bashrc" : String).data) ∧
    fileExtension (pathJoin "." ".bashrc") = amendedExtSpec ".bashrc" :=
  ⟨by decide, claim_C6 "." ".bashrc" (by decide)⟩

/-! ### Template substitution (C5) -/

/-- C5 (amended): with a template configured, the text appended for the
emitted files is, per file in visit order, the template passed through
three successive global `String.replace` passes — `{{path}}`, then
`{{extension}}`, then `{{content}}` — plus two newlines, where each
inserted value undergoes ECMAScript `$`-escape substitution
(`GetSubstitution`: `$$`, `$&`, `$` + U+0060, `$` + U+0027).  Hence the
substitution is neither simultaneous nor literal: placeholder-like text
introduced by an earlier replace is itself substituted by a later one,
and `$` sequences in the file's path, extension or text are rewritten
rather than inserted verbatim. -/
theorem claim_C5 (mm : String → String → Bool) (options : CodeAtlasConfig)
    (roots : List FSTree) (t : String)
    (ht : options.fileTemplate = some t) :
    (writeFileContent mm options roots).output =
      joinChunks (((scanVisits mm options roots).filter fun v =>
        !(visitExcluded options.maxFileSize
          (options.alwaysIncludeExtensions.getD []) v)).map
        fun v =>
          jsReplaceAll
            (jsReplaceAll
              (jsReplaceAll t ("\x7b\x7bpath\x7d\x7d") v.relPath)
              ("\x7b\x7bextension\x7d\x7d") (fileExtension v.fullPath))
            ("\x7b\x7bcontent\x7d\x7d") v.entry.content ++ ("\n\n")) := by
  rw [writeFileContent_foldl, foldl_contentStep, ht]
  rfl

/-- Counterexample to C5 as stated (simultaneous, literal substitution
of the template's own placeholder occurrences), on both counts.
Sequential: a file named `{{content}}` reaches the `{{path}}`
replacement, and the third replace then substitutes the file's raw text
for it, so the emitted chunk is `SECRET\n\n` while substituting the
template's occurrences with the values yields `{{content}}\n\n`.
Non-literal: a file whose text is `$&` emits `{{content}}\n\n` from the
template `{{content}}` — `$&` re-inserts the matched placeholder — while
literal substitution yields `$&\n\n`. -/
theorem claim_C5_counterexample :
    ((writeFileContent mm0 cfgTmpl rootsBraced).output = ("SECRET\n\n") ∧
     substSimultaneous ("\x7b\x7bpath\x7d\x7d")
        ("\x7b\x7bcontent\x7d\x7d") ("") ("SECRET") ++ ("\n\n") =
      ("\x7b\x7bcontent\x7d\x7d\n\n") ∧
     ("SECRET\n\n" : String) ≠ ("\x7b\x7bcontent\x7d\x7d\n\n")) ∧
    ((writeFileContent mm0 cfgTmplAmp rootsAmp).output =
        ("\x7b\x7bcontent\x7d\x7d\n\n") ∧
     substSimultaneous ("\x7b\x7bcontent\x7d\x7d") ("a.ts") ("ts")
        ("$&") ++ ("\n\n") = ("$&\n\n") ∧
     ("\x7b\x7bcontent\x7d\x7d\n\n" : String) ≠ ("$&\n\n")) := by
  refine ⟨⟨?_, by decide, by decide⟩, ⟨?_, by decide, by decide⟩⟩
  · rw [writeFileContent_foldl, foldl_contentStep]
    simp only [scanVisits]
    simp [fileVisits, prepareEntries, sortEntries, jsSortBy,
      List.insertionSort, mm0, cfgTmpl, rootsBraced, shouldIgnore, pathJoin,
      FSTree.name]
    decide
  · rw [writeFileContent_foldl, foldl_contentStep]
    simp only [scanVisits]
    simp [fileVisits, prepareEntries, sortEntries, jsSortBy,
      List.insertionSort, mm0, cfgTmplAmp, rootsAmp, shouldIgnore, pathJoin,
      FSTree.name]
    decide

/-- Witness for the amended C5 at the concrete braced-name scan. -/
theorem claim_C5_witness :
    cfgTmpl.fileTemplate = some ("\x7b\x7bpath\x7d\x7d") ∧
    (writeFileContent mm0 cfgTmpl rootsBraced).output =
      joinChunks (((scanVisits mm0 cfgTmpl rootsBraced).filter fun v =>
        !(visitExcluded cfgTmpl.maxFileSize
          (cfgTmpl.alwaysIncludeExtensions.getD []) v)).map
        fun v =>
          jsReplaceAll
            (jsReplaceAll
              (jsReplaceAll ("\x7b\x7bpath\x7d\x7d")
                ("\x7b\x7bpath\x7d\x7d") v.relPath)
              ("\x7b\x7bextension\x7d\x7d") (fileExtension v.fullPath))
            ("\x7b\x7bcontent\x7d\x7d") v.entry.content ++ ("\n\n")) :=
  ⟨rfl, claim_C5 mm0 cfgTmpl rootsBraced ("\x7b\x7bpath\x7d\x7d") rfl⟩

/-! ### depthOpen bookkeeping (C4, C8) -/

/-- Frame: a walk at depth `d` never changes the `depthOpen` map at
levels below `d`. -/
theorem walkLoop_snd_frame {σ : Type} (mm : String → String → Bool)
    (rootDir : String) (pats : List String) (onFile : FileCallback σ)
    (onDir : Option (FileCallback σ)) (sort : Option SortMethod)
    (sd : Option SortDirection) :
    ∀ (entries : List FSTree) (dirPath : String) (depth : Nat)
      (dOpen : Nat → Bool) (s : σ) (l : Nat), l < depth →
    (walkLoop mm rootDir pats onFile onDir sort sd dirPath entries depth
      dOpen s).2 l = dOpen l := by
  intro entries
  induction entries using walk_induction mm pats sort sd with
  | h0 =>
    intro dirPath depth dOpen s l hl
    rw [walkLoop_nil]
  | hdir nm sz mt children rest ih1 ih2 =>
    intro dirPath depth dOpen s l hl
    rw [walkLoop_cons_dir]
    rw [ih2 _ _ _ _ l hl]
    unfold setDepth
    rw [if_neg (by omega)]
    rw [ih1 (pathJoin dirPath nm) _ _ _ _ l (by omega)]
    rw [if_neg (by omega)]
  | hfile nm sz mt c rest ih =>
    intro dirPath depth dOpen s l hl
    rw [walkLoop_cons_file]
    exact ih _ _ _ _ l hl

/-- If every level at or above the walk's depth is closed on entry, the
returned map is closed there as well. -/
theorem walkLoop_snd_closed {σ : Type} (mm : String → String → Bool)
    (rootDir : String) (pats : List String) (onFile : FileCallback σ)
    (onDir : Option (FileCallback σ)) (sort : Option SortMethod)
    (sd : Option SortDirection) :
    ∀ (entries : List FSTree) (dirPath : String) (depth : Nat)
      (dOpen : Nat → Bool) (s : σ),
    (∀ l, depth ≤ l → dOpen l = false) →
    ∀ l, depth ≤ l →
    (walkLoop mm rootDir pats onFile onDir sort sd dirPath entries depth
      dOpen s).2 l = false := by
  intro entries
  induction entries using walk_induction mm pats sort sd with
  | h0 =>
    intro dirPath depth dOpen s hc l hl
    rw [walkLoop_nil]
    exact hc l hl
  | hdir nm sz mt children rest ih1 ih2 =>
    intro dirPath depth dOpen s hc l hl
    rw [walkLoop_cons_dir]
    refine ih2 _ _ _ _ ?_ l hl
    intro j hj
    unfold setDepth
    by_cases hjd : j = depth
    · rw [if_pos hjd]
    · rw [if_neg hjd]
      refine ih1 (pathJoin dirPath nm) _ _ _ _ ?_ j (by omega)
      intro k hk
      rw [if_neg (by omega)]
      exact hc k (by omega)
  | hfile nm sz mt c rest ih =>
    intro dirPath depth dOpen s hc l hl
    rw [walkLoop_cons_file]
    exact ih _ _ _ _ hc l hl

/-- A recording walk only appends: the state comes out as the incoming
state followed by the records of a run started from `[]`, and the final
`depthOpen` map does not depend on the incoming state. -/
theorem walkLoop_record_append (mm : String → String → Bool)
    (rootDir : String) (pats : List String) (sort : Option SortMethod)
    (sd : Option SortDirection) :
    ∀ (entries : List FSTree) (dirPath : String) (depth : Nat)
      (dOpen : Nat → Bool) (s : List VisitRec),
    walkLoop mm rootDir pats recordVisit (some recordVisit) sort sd dirPath
        entries depth dOpen s =
      (s ++ (walkLoop mm rootDir pats recordVisit (some recordVisit) sort sd
        dirPath entries depth dOpen []).1,
       (walkLoop mm rootDir pats recordVisit (some recordVisit) sort sd
        dirPath entries depth dOpen []).2) := by
  intro entries
  induction entries using walk_induction mm pats sort sd with
  | h0 =>
    intro dirPath depth dOpen s
    rw [walkLoop_nil, walkLoop_nil]
    simp
  | hdir nm sz mt children rest ih1 ih2 =>
    intro dirPath depth dOpen s
    rw [walkLoop_cons_dir, walkLoop_cons_dir]
    simp only [recordVisit]
    rw [ih1 (pathJoin dirPath nm) (pathJoin dirPath nm) (depth + 1)
      (setDepth dOpen depth (!rest.isEmpty)) (s ++ [_]),
      ih1 (pathJoin dirPath nm) (pathJoin dirPath nm) (depth + 1)
      (setDepth dOpen depth (!rest.isEmpty)) ([] ++ [_])]
    simp only []
    rw [ih2 dirPath depth _ _]
    conv_rhs => rw [ih2 dirPath depth _ _]
    simp [List.append_assoc]
  | hfile nm sz mt c rest ih =>
    intro dirPath depth dOpen s
    rw [walkLoop_cons_file, walkLoop_cons_file]
    simp only [recordVisit]
    rw [ih dirPath depth dOpen (s ++ [_])]
    conv_rhs => rw [ih dirPath depth dOpen ([] ++ [_])]
    simp [List.append_assoc]

/-- `isLast` flags of a sibling listing in visit order. -/
def isLastFlags : List FSTree → List Bool
  | [] => []
  | _ :: rest => rest.isEmpty :: isLastFlags rest

theorem isLastFlags_replicate :
    ∀ (l : List FSTree), l ≠ [] →
    isLastFlags l = List.replicate (l.length - 1) false ++ [true] := by
  intro l
  induction l with
  | nil => intro h; exact absurd rfl h
  | cons e rest ih =>
    intro h
    cases rest with
    | nil => rfl
    | cons x xs =>
      rw [isLastFlags, ih (by simp)]
      simp [List.replicate_succ]

/-- Decomposition of a recording walk's records at a directory child:
the directory's own record, the subtree's records, then the remaining
siblings' records. -/
theorem record_cons_dir_decomp (mm : String → String → Bool)
    (rootDir : String) (pats : List String) (sort : Option SortMethod)
    (sd : Option SortDirection) (dirPath nm : String) (sz : Nat) (mt : Int)
    (children rest : List FSTree) (depth : Nat) (dOpen : Nat → Bool) :
    (walkLoop mm rootDir pats recordVisit (some recordVisit) sort sd dirPath
      (FSTree.dir nm sz mt children :: rest) depth dOpen []) =
    (({ relPath := pathRelative rootDir (pathJoin dirPath nm),
        depth := depth, isLast := rest.isEmpty, snap := dOpen } : VisitRec) ::
      ((walkLoop mm rootDir pats recordVisit (some recordVisit) sort sd
        (pathJoin dirPath nm)
        (prepareEntries mm pats sort sd (pathJoin dirPath nm) children)
        (depth + 1) (setDepth dOpen depth (!rest.isEmpty)) []).1 ++
       (walkLoop mm rootDir pats recordVisit (some recordVisit) sort sd
        dirPath rest depth
        (setDepth (walkLoop mm rootDir pats recordVisit (some recordVisit)
          sort sd (pathJoin dirPath nm)
          (prepareEntries mm pats sort sd (pathJoin dirPath nm) children)
          (depth + 1) (setDepth dOpen depth (!rest.isEmpty)) []).2
          depth false) []).1),
     (walkLoop mm rootDir pats recordVisit (some recordVisit) sort sd
        dirPath rest depth
        (setDepth (walkLoop mm rootDir pats recordVisit (some recordVisit)
          sort sd (pathJoin dirPath nm)
          (prepareEntries mm pats sort sd (pathJoin dirPath nm) children)
          (depth + 1) (setDepth dOpen depth (!rest.isEmpty)) []).2
          depth false) []).2) := by
  rw [walkLoop_cons_dir]
  simp only [recordVisit]
  rw [walkLoop_record_append mm rootDir pats sort sd
    (prepareEntries mm pats sort sd (pathJoin dirPath nm) children)
    (pathJoin dirPath nm) (depth + 1)
    (setDepth dOpen depth (!rest.isEmpty)) ([] ++ [_])]
  simp only []
  rw [walkLoop_record_append mm rootDir pats sort sd rest dirPath depth _ _]
  simp [List.append_assoc]

/-- Decomposition at a file child: the file's record, then the remaining
siblings' records. -/
theorem record_cons_file_decomp (mm : String → String → Bool)
    (rootDir : String) (pats : List String) (sort : Option SortMethod)
    (sd : Option SortDirection) (dirPath nm : String) (sz : Nat) (mt : Int)
    (c : String) (rest : List FSTree) (depth : Nat) (dOpen : Nat → Bool) :
    (walkLoop mm rootDir pats recordVisit (some recordVisit) sort sd dirPath
      (FSTree.file nm sz mt c :: rest) depth dOpen []) =
    (({ relPath := pathRelative rootDir (pathJoin dirPath nm),
        depth := depth, isLast := rest.isEmpty, snap := dOpen } : VisitRec) ::
      (walkLoop mm rootDir pats recordVisit (some recordVisit) sort sd
        dirPath rest depth dOpen []).1,
     (walkLoop mm rootDir pats recordVisit (some recordVisit) sort sd
        dirPath rest depth dOpen []).2) := by
  rw [walkLoop_cons_file]
  simp only [recordVisit]
  rw [walkLoop_record_append mm rootDir pats sort sd rest dirPath depth
    dOpen ([] ++ [_])]
  simp

/-- Every record of a walk at depth `d` sits at depth `d` or deeper. -/
theorem walkLoop_record_depth_le (mm : String → String → Bool)
    (rootDir : String) (pats : List String) (sort : Option SortMethod)
    (sd : Option SortDirection) :
    ∀ (entries : List FSTree) (dirPath : String) (depth : Nat)
      (dOpen : Nat → Bool),
    ∀ v ∈ (walkLoop mm rootDir pats recordVisit (some recordVisit) sort sd
      dirPath entries depth dOpen []).1, depth ≤ v.depth := by
  intro entries
  induction entries using walk_induction mm pats sort sd with
  | h0 =>
    intro dirPath depth dOpen v hv
    rw [walkLoop_nil] at hv
    exact absurd hv (List.not_mem_nil v)
  | hdir nm sz mt children rest ih1 ih2 =>
    intro dirPath depth dOpen v hv
    rw [record_cons_dir_decomp] at hv
    simp only [] at hv
    rcases List.mem_cons.mp hv with rfl | hv1
    · exact Nat.le_refl depth
    · rcases List.mem_append.mp hv1 with hv2 | hv3
      · exact Nat.le_of_succ_le (ih1 (pathJoin dirPath nm)
          (pathJoin dirPath nm) (depth + 1) _ v hv2)
      · exact ih2 dirPath depth _ v hv3
  | hfile nm sz mt c rest ih =>
    intro dirPath depth dOpen v hv
    rw [record_cons_file_decomp] at hv
    simp only [] at hv
    rcases List.mem_cons.mp hv with rfl | hv1
    · exact Nat.le_refl depth
    · exact ih dirPath depth dOpen v hv1

/-- Records never observe changes at levels below the depth of the loop
that is running: sibling subtrees cannot leak `depthOpen` state to each
other or to shallower levels. -/
theorem walkLoop_record_no_leak (mm : String → String → Bool)
    (rootDir : String) (pats : List String) (sort : Option SortMethod)
    (sd : Option SortDirection) :
    ∀ (entries : List FSTree) (dirPath : String) (depth : Nat)
      (dOpen : Nat → Bool),
    ∀ v ∈ (walkLoop mm rootDir pats recordVisit (some recordVisit) sort sd
      dirPath entries depth dOpen []).1,
    ∀ l, l < depth → v.snap l = dOpen l := by
  intro entries
  induction entries using walk_induction mm pats sort sd with
  | h0 =>
    intro dirPath depth dOpen v hv
    rw [walkLoop_nil] at hv
    exact absurd hv (List.not_mem_nil v)
  | hdir nm sz mt children rest ih1 ih2 =>
    intro dirPath depth dOpen v hv l hl
    rw [record_cons_dir_decomp] at hv
    simp only [] at hv
    rcases List.mem_cons.mp hv with rfl | hv1
    · rfl
    · rcases List.mem_append.mp hv1 with hv2 | hv3
      · rw [ih1 (pathJoin dirPath nm) (pathJoin dirPath nm) (depth + 1) _
          v hv2 l (by omega)]
        unfold setDepth
        rw [if_neg (by omega)]
      · rw [ih2 dirPath depth _ v hv3 l hl]
        unfold setDepth
        rw [if_neg (by omega)]
        rw [walkLoop_snd_frame mm rootDir pats recordVisit
          (some recordVisit) sort sd _ _ (depth + 1) _ _ l (by omega)]
        rw [if_neg (by omega)]
  | hfile nm sz mt c rest ih =>
    intro dirPath depth dOpen v hv l hl
    rw [record_cons_file_decomp] at hv
    simp only [] at hv
    rcases List.mem_cons.mp hv with rfl | hv1
    · rfl
    · exact ih dirPath depth dOpen v hv1 l hl

/-- Starting from a map closed at the loop's depth and deeper, no record
ever observes an open flag at its own depth or any deeper level: the
reset after each subtree keeps stale flags invisible. -/
theorem walkLoop_record_closed (mm : String → String → Bool)
    (rootDir : String) (pats : List String) (sort : Option SortMethod)
    (sd : Option SortDirection) :
    ∀ (entries : List FSTree) (dirPath : String) (depth : Nat)
      (dOpen : Nat → Bool),
    (∀ l, depth ≤ l → dOpen l = false) →
    ∀ v ∈ (walkLoop mm rootDir pats recordVisit (some recordVisit) sort sd
      dirPath entries depth dOpen []).1,
    ∀ l, v.depth ≤ l → v.snap l = false := by
  intro entries
  induction entries using walk_induction mm pats sort sd with
  | h0 =>
    intro dirPath depth dOpen hc v hv
    rw [walkLoop_nil] at hv
    exact absurd hv (List.not_mem_nil v)
  | hdir nm sz mt children rest ih1 ih2 =>
    intro dirPath depth dOpen hc v hv l hl
    rw [record_cons_dir_decomp] at hv
    simp only [] at hv
    rcases List.mem_cons.mp hv with rfl | hv1
    · exact hc l hl
    · rcases List.mem_append.mp hv1 with hv2 | hv3
      · refine ih1 (pathJoin dirPath nm) (pathJoin dirPath nm) (depth + 1) _
          ?_ v hv2 l hl
        intro k hk
        unfold setDepth
        rw [if_neg (by omega)]
        exact hc k (by omega)
      · refine ih2 dirPath depth _ ?_ v hv3 l hl
        intro k hk
        unfold setDepth
        by_cases hkd : k = depth
        · rw [if_pos hkd]
        · rw [if_neg hkd]
          refine walkLoop_snd_closed mm rootDir pats recordVisit
            (some recordVisit) sort sd _ _ (depth + 1) _ _ ?_ k (by omega)
          intro j hj
          rw [if_neg (by omega)]
          exact hc j (by omega)
  | hfile nm sz mt c rest ih =>
    intro dirPath depth dOpen hc v hv l hl
    rw [record_cons_file_decomp] at hv
    simp only [] at hv
    rcases List.mem_cons.mp hv with rfl | hv1
    · exact hc l hl
    · exact ih dirPath depth dOpen hc v hv1 l hl

/-- C4: (i) a walk never changes `depthOpen` below its depth, so after a
directory subtree returns — its own level having been reset to `false` —
everything below the loop's depth is intact; (ii) no visited entry ever
observes a change at a level below the depth of the loop that visits it,
so state set inside one sibling subtree is never observed from a later
sibling subtree at those levels; (iii) starting closed (as the real run
does, with `depthOpen = {}`), no entry ever observes an open flag at its
own depth or deeper — stale flags are invisible because of the reset. -/
theorem claim_C4 (mm : String → String → Bool) (dirPath : String)
    (entries : List FSTree) (rootDir : String) (pats : List String)
    (depth : Nat) (dOpen : Nat → Bool) (sort : Option SortMethod)
    (sd : Option SortDirection) :
    (∀ l, l < depth →
      (collectWalk mm dirPath entries rootDir pats depth dOpen sort sd).2 l
        = dOpen l) ∧
    (∀ v ∈ (collectWalk mm dirPath entries rootDir pats depth dOpen sort
      sd).1, ∀ l, l < depth → v.snap l = dOpen l) ∧
    ((∀ l, depth ≤ l → dOpen l = false) →
      ∀ v ∈ (collectWalk mm dirPath entries rootDir pats depth dOpen sort
        sd).1, ∀ l, v.depth ≤ l → v.snap l = false) := by
  refine ⟨?_, ?_, ?_⟩
  · intro l hl
    exact walkLoop_snd_frame mm rootDir pats recordVisit (some recordVisit)
      sort sd _ _ depth dOpen [] l hl
  · intro v hv l hl
    exact walkLoop_record_no_leak mm rootDir pats sort sd _ _ depth dOpen
      v hv l hl
  · intro hc v hv l hl
    exact walkLoop_record_closed mm rootDir pats sort sd _ _ depth dOpen hc
      v hv l hl

/-- Witness for C4 at a concrete walk: the two-entry tree, depth 0,
everything closed. -/
theorem claim_C4_witness :
    (∀ v ∈ (collectWalk mm0 "." rootsSmallBig "." [] 0 (fun _ => false)
      none none).1, ∀ l, v.depth ≤ l → v.snap l = false) :=
  (claim_C4 mm0 "." rootsSmallBig "." [] 0 (fun _ => false) none none).2.2
    (fun _ _ => rfl)

/-- The records at exactly the loop's depth are the sibling callbacks in
order: their relative paths list the prepared entries, and their
`isLast` flags follow the position in the listing. -/
theorem walkLoop_record_level (mm : String → String → Bool)
    (rootDir : String) (pats : List String) (sort : Option SortMethod)
    (sd : Option SortDirection) :
    ∀ (entries : List FSTree) (dirPath : String) (depth : Nat)
      (dOpen : Nat → Bool),
    (((walkLoop mm rootDir pats recordVisit (some recordVisit) sort sd
        dirPath entries depth dOpen []).1.filter
        fun v => decide (v.depth = depth)).map fun v => v.relPath) =
      entries.map (fun e => pathRelative rootDir (pathJoin dirPath e.name)) ∧
    (((walkLoop mm rootDir pats recordVisit (some recordVisit) sort sd
        dirPath entries depth dOpen []).1.filter
        fun v => decide (v.depth = depth)).map fun v => v.isLast) =
      isLastFlags entries := by
  intro entries
  induction entries using walk_induction mm pats sort sd with
  | h0 =>
    intro dirPath depth dOpen
    rw [walkLoop_nil]
    exact ⟨rfl, rfl⟩
  | hdir nm sz mt children rest ih1 ih2 =>
    intro dirPath depth dOpen
    rw [record_cons_dir_decomp]
    simp only []
    have hsub : ((walkLoop mm rootDir pats recordVisit (some recordVisit)
        sort sd (pathJoin dirPath nm)
        (prepareEntries mm pats sort sd (pathJoin dirPath nm) children)
        (depth + 1) (setDepth dOpen depth (!rest.isEmpty)) []).1.filter
        fun v => decide (v.depth = depth)) = [] := by
      refine List.filter_eq_nil_iff.mpr ?_
      intro v hv
      have := walkLoop_record_depth_le mm rootDir pats sort sd _ _
        (depth + 1) _ v hv
      simp
      omega
    rw [List.filter_cons, List.filter_append, hsub, List.nil_append,
      if_pos (by simp)]
    constructor
    · rw [List.map_cons]
      simp only [FSTree.name, List.map_cons]
      exact congrArg (List.cons _) (ih2 dirPath depth _).1
    · rw [List.map_cons, isLastFlags]
      exact congrArg (List.cons _) (ih2 dirPath depth _).2
  | hfile nm sz mt c rest ih =>
    intro dirPath depth dOpen
    rw [record_cons_file_decomp]
    simp only []
    rw [List.filter_cons, if_pos (by simp)]
    constructor
    · rw [List.map_cons]
      simp only [FSTree.name, List.map_cons]
      exact congrArg (List.cons _) (ih dirPath depth dOpen).1
    · rw [List.map_cons, isLastFlags]
      exact congrArg (List.cons _) (ih dirPath depth dOpen).2

/-- C8: the callbacks of one visited listing receive exactly the
filtered, sorted children in order — their relative paths are the
prepared entries' relative paths — and their `isLast` flags are `false`
for every position but the last, which is `true`: exactly one sibling
callback of a non-empty listing gets `isLast = true`, the one visited
last. -/
theorem claim_C8 (mm : String → String → Bool) (dirPath : String)
    (entries : List FSTree) (rootDir : String) (pats : List String)
    (depth : Nat) (dOpen : Nat → Bool) (sort : Option SortMethod)
    (sd : Option SortDirection) :
    (((collectWalk mm dirPath entries rootDir pats depth dOpen sort
        sd).1.filter fun v => decide (v.depth = depth)).map
        fun v => v.relPath) =
      (prepareEntries mm pats sort sd dirPath entries).map
        (fun e => pathRelative rootDir (pathJoin dirPath e.name)) ∧
    ((prepareEntries mm pats sort sd dirPath entries) ≠ [] →
      (((collectWalk mm dirPath entries rootDir pats depth dOpen sort
          sd).1.filter fun v => decide (v.depth = depth)).map
          fun v => v.isLast) =
        List.replicate
          ((prepareEntries mm pats sort sd dirPath entries).length - 1)
          false ++ [true] ∧
      ((((collectWalk mm dirPath entries rootDir pats depth dOpen sort
          sd).1.filter fun v => decide (v.depth = depth)).map
          fun v => v.isLast).count true) = 1) := by
  have hlev := walkLoop_record_level mm rootDir pats sort sd
    (prepareEntries mm pats sort sd dirPath entries) dirPath depth dOpen
  constructor
  · exact hlev.1
  · intro hne
    have hflags : (((collectWalk mm dirPath entries rootDir pats depth dOpen
        sort sd).1.filter fun v => decide (v.depth = depth)).map
        fun v => v.isLast) =
        List.replicate
          ((prepareEntries mm pats sort sd dirPath entries).length - 1)
          false ++ [true] := by
      rw [show (((collectWalk mm dirPath entries rootDir pats depth dOpen
        sort sd).1.filter fun v => decide (v.depth = depth)).map
        fun v => v.isLast) = isLastFlags
          (prepareEntries mm pats sort sd dirPath entries) from hlev.2]
      exact isLastFlags_replicate _ hne
    refine ⟨hflags, ?_⟩
    rw [hflags]
    simp [List.count_replicate]

/-- Witness for C8 at the two-entry tree. -/
theorem claim_C8_witness :
    0 < (prepareEntries mm0 [] none none "." rootsSmallBig).length ∧
    ((((collectWalk mm0 "." rootsSmallBig "." [] 0 (fun _ => false) none
        none).1.filter fun v => decide (v.depth = 0)).map
        fun v => v.isLast).count true) = 1 :=
  ⟨by decide, ((claim_C8 mm0 "." rootsSmallBig "." [] 0 (fun _ => false)
    none none).2 (List.ne_nil_of_length_pos (by decide))).2⟩

/-! ### The two walkDir versions visit the same entries (C10) -/

theorem walkLoopOld_nil {σ : Type} (mm : String → String → Bool)
    (rootDir : String) (pats : List String) (onFile : FileCallback σ)
    (onDir : Option (FileCallback σ)) (dirPath : String) (depth : Nat)
    (dOpen : Nat → Bool) (s : σ) :
    walkLoopOld mm rootDir pats onFile onDir dirPath [] depth dOpen s
      = (s, dOpen) := by
  simp [walkLoopOld]

theorem walkLoopOld_cons_dir {σ : Type} (mm : String → String → Bool)
    (rootDir : String) (pats : List String) (onFile : FileCallback σ)
    (onDir : Option (FileCallback σ)) (dirPath nm : String) (sz : Nat)
    (mt : Int) (children rest : List FSTree) (depth : Nat)
    (dOpen : Nat → Bool) (s : σ) :
    walkLoopOld mm rootDir pats onFile onDir dirPath
      (FSTree.dir nm sz mt children :: rest) depth dOpen s =
    (fun r2 : σ × (Nat → Bool) =>
      walkLoopOld mm rootDir pats onFile onDir dirPath rest depth
        (setDepth r2.2 depth false) r2.1)
    (walkLoopOld mm rootDir pats onFile onDir (pathJoin dirPath nm)
      (filterEntries mm pats (pathJoin dirPath nm) children)
      (depth + 1) (setDepth dOpen depth (!rest.isEmpty))
      (match onDir with
       | some f => f (FSTree.dir nm sz mt children) (pathJoin dirPath nm)
           (pathRelative rootDir (pathJoin dirPath nm)) depth rest.isEmpty
           dOpen s
       | none => s)) := by
  conv_lhs => rw [walkLoopOld.eq_def]
  simp only [FSTree.name]

theorem walkLoopOld_cons_file {σ : Type} (mm : String → String → Bool)
    (rootDir : String) (pats : List String) (onFile : FileCallback σ)
    (onDir : Option (FileCallback σ)) (dirPath nm : String) (sz : Nat)
    (mt : Int) (c : String) (rest : List FSTree) (depth : Nat)
    (dOpen : Nat → Bool) (s : σ) :
    walkLoopOld mm rootDir pats onFile onDir dirPath
      (FSTree.file nm sz mt c :: rest) depth dOpen s =
    walkLoopOld mm rootDir pats onFile onDir dirPath rest depth dOpen
      (onFile (FSTree.file nm sz mt c) (pathJoin dirPath nm)
        (pathRelative rootDir (pathJoin dirPath nm)) depth rest.isEmpty
        dOpen s) := by
  conv_lhs => rw [walkLoopOld.eq_def]
  simp only [FSTree.name]

theorem tripsNew_nil (mm : String → String → Bool) (rootDir : String)
    (pats : List String) (sort : Option SortMethod)
    (sd : Option SortDirection) (dirPath : String) (depth : Nat) :
    tripsNew mm rootDir pats sort sd dirPath depth [] = [] := by
  simp [tripsNew]

theorem tripsNew_cons_dir (mm : String → String → Bool) (rootDir : String)
    (pats : List String) (sort : Option SortMethod)
    (sd : Option SortDirection) (dirPath nm : String) (sz : Nat) (mt : Int)
    (children rest : List FSTree) (depth : Nat) :
    tripsNew mm rootDir pats sort sd dirPath depth
      (FSTree.dir nm sz mt children :: rest) =
    (pathRelative rootDir (pathJoin dirPath nm), depth, true) ::
    (tripsNew mm rootDir pats sort sd (pathJoin dirPath nm) (depth + 1)
      (prepareEntries mm pats sort sd (pathJoin dirPath nm) children) ++
     tripsNew mm rootDir pats sort sd dirPath depth rest) := by
  conv_lhs => rw [tripsNew.eq_def]
  simp only [FSTree.name, FSTree.isDirectory]

theorem tripsNew_cons_file (mm : String → String → Bool) (rootDir : String)
    (pats : List String) (sort : Option SortMethod)
    (sd : Option SortDirection) (dirPath nm : String) (sz : Nat) (mt : Int)
    (c : String) (rest : List FSTree) (depth : Nat) :
    tripsNew mm rootDir pats sort sd dirPath depth
      (FSTree.file nm sz mt c :: rest) =
    (pathRelative rootDir (pathJoin dirPath nm), depth, false) ::
    tripsNew mm rootDir pats sort sd dirPath depth rest := by
  conv_lhs => rw [tripsNew.eq_def]
  simp only [FSTree.name, FSTree.isDirectory]

theorem tripsOld_nil (mm : String → String → Bool) (rootDir : String)
    (pats : List String) (dirPath : String) (depth : Nat) :
    tripsOld mm rootDir pats dirPath depth [] = [] := by
  simp [tripsOld]

theorem tripsOld_cons_dir (mm : String → String → Bool) (rootDir : String)
    (pats : List String) (dirPath nm : String) (sz : Nat) (mt : Int)
    (children rest : List FSTree) (depth : Nat) :
    tripsOld mm rootDir pats dirPath depth
      (FSTree.dir nm sz mt children :: rest) =
    (pathRelative rootDir (pathJoin dirPath nm), depth, true) ::
    (tripsOld mm rootDir pats (pathJoin dirPath nm) (depth + 1)
      (filterEntries mm pats (pathJoin dirPath nm) children) ++
     tripsOld mm rootDir pats dirPath depth rest) := by
  conv_lhs => rw [tripsOld.eq_def]
  simp only [FSTree.name, FSTree.isDirectory]

theorem tripsOld_cons_file (mm : String → String → Bool) (rootDir : String)
    (pats : List String) (dirPath nm : String) (sz : Nat) (mt : Int)
    (c : String) (rest : List FSTree) (depth : Nat) :
    tripsOld mm rootDir pats dirPath depth
      (FSTree.file nm sz mt c :: rest) =
    (pathRelative rootDir (pathJoin dirPath nm), depth, false) ::
    tripsOld mm rootDir pats dirPath depth rest := by
  conv_lhs => rw [tripsOld.eq_def]
  simp only [FSTree.name, FSTree.isDirectory]

/-- The triple-recording run of the sorting walk collects `tripsNew`. -/
theorem walkLoop_triples (mm : String → String → Bool) (rootDir : String)
    (pats : List String) (sort : Option SortMethod)
    (sd : Option SortDirection) :
    ∀ (entries : List FSTree) (dirPath : String) (depth : Nat)
      (dOpen : Nat → Bool) (s : List (String × Nat × Bool)),
    (walkLoop mm rootDir pats recordTriple (some recordTriple) sort sd
      dirPath entries depth dOpen s).1 =
      s ++ tripsNew mm rootDir pats sort sd dirPath depth entries := by
  intro entries
  induction entries using walk_induction mm pats sort sd with
  | h0 =>
    intro dirPath depth dOpen s
    rw [walkLoop_nil, tripsNew_nil, List.append_nil]
  | hdir nm sz mt children rest ih1 ih2 =>
    intro dirPath depth dOpen s
    rw [walkLoop_cons_dir, tripsNew_cons_dir]
    simp only [recordTriple, FSTree.isDirectory]
    rw [ih2 dirPath depth _ _]
    rw [ih1 (pathJoin dirPath nm) (pathJoin dirPath nm) (depth + 1) _ _]
    simp [List.append_assoc]
  | hfile nm sz mt c rest ih =>
    intro dirPath depth dOpen s
    rw [walkLoop_cons_file, tripsNew_cons_file]
    simp only [recordTriple, FSTree.isDirectory]
    rw [ih dirPath depth dOpen _]
    simp [List.append_assoc]

/-- The triple-recording run of the non-sorting walk collects
`tripsOld`. -/
theorem walkLoopOld_triples (mm : String → String → Bool)
    (rootDir : String) (pats : List String) :
    ∀ (entries : List FSTree) (dirPath : String) (depth : Nat)
      (dOpen : Nat → Bool) (s : List (String × Nat × Bool)),
    (walkLoopOld mm rootDir pats recordTriple (some recordTriple)
      dirPath entries depth dOpen s).1 =
      s ++ tripsOld mm rootDir pats dirPath depth entries := by
  intro entries
  induction entries using walkOld_induction mm pats with
  | h0 =>
    intro dirPath depth dOpen s
    rw [walkLoopOld_nil, tripsOld_nil, List.append_nil]
  | hdir nm sz mt children rest ih1 ih2 =>
    intro dirPath depth dOpen s
    rw [walkLoopOld_cons_dir, tripsOld_cons_dir]
    simp only [recordTriple, FSTree.isDirectory]
    rw [ih2 dirPath depth _ _]
    rw [ih1 (pathJoin dirPath nm) (pathJoin dirPath nm) (depth + 1) _ _]
    simp [List.append_assoc]
  | hfile nm sz mt c rest ih =>
    intro dirPath depth dOpen s
    rw [walkLoopOld_cons_file, tripsOld_cons_file]
    simp only [recordTriple, FSTree.isDirectory]
    rw [ih dirPath depth dOpen _]
    simp [List.append_assoc]

theorem tripsNew_cons_block (mm : String → String → Bool)
    (rootDir : String) (pats : List String) (sort : Option SortMethod)
    (sd : Option SortDirection) (dirPath : String) (depth : Nat)
    (entry : FSTree) (rest : List FSTree) :
    tripsNew mm rootDir pats sort sd dirPath depth (entry :: rest) =
    blockNew mm rootDir pats sort sd dirPath depth entry ++
      tripsNew mm rootDir pats sort sd dirPath depth rest := by
  cases entry with
  | dir nm sz mt children =>
    rw [tripsNew_cons_dir]
    simp [blockNew, FSTree.name, FSTree.isDirectory]
  | file nm sz mt c =>
    rw [tripsNew_cons_file]
    simp [blockNew, FSTree.name, FSTree.isDirectory]

theorem tripsOld_cons_block (mm : String → String → Bool)
    (rootDir : String) (pats : List String) (dirPath : String) (depth : Nat)
    (entry : FSTree) (rest : List FSTree) :
    tripsOld mm rootDir pats dirPath depth (entry :: rest) =
    blockOld mm rootDir pats dirPath depth entry ++
      tripsOld mm rootDir pats dirPath depth rest := by
  cases entry with
  | dir nm sz mt children =>
    rw [tripsOld_cons_dir]
    simp [blockOld, FSTree.name, FSTree.isDirectory]
  | file nm sz mt c =>
    rw [tripsOld_cons_file]
    simp [blockOld, FSTree.name, FSTree.isDirectory]

/-- Permuting a listing permutes its `tripsNew`. -/
theorem tripsNew_perm_congr (mm : String → String → Bool)
    (rootDir : String) (pats : List String) (sort : Option SortMethod)
    (sd : Option SortDirection) (dirPath : String) (depth : Nat)
    {l l' : List FSTree} (h : l.Perm l') :
    (tripsNew mm rootDir pats sort sd dirPath depth l).Perm
      (tripsNew mm rootDir pats sort sd dirPath depth l') := by
  induction h with
  | nil => exact List.Perm.refl _
  | cons e p ih =>
    rw [tripsNew_cons_block, tripsNew_cons_block]
    exact (List.Perm.append_left _ ih)
  | swap x y l =>
    rw [tripsNew_cons_block, tripsNew_cons_block, tripsNew_cons_block,
      tripsNew_cons_block, ← List.append_assoc, ← List.append_assoc]
    exact List.Perm.append_right _ (List.perm_append_comm)
  | trans p q ih1 ih2 => exact ih1.trans ih2

/-- Core of C10: on the same underlying listing, the sorting walk's
visit triples are a permutation of the earlier walk's visit triples. -/
theorem tripsNew_perm_tripsOld (mm : String → String → Bool)
    (rootDir : String) (pats : List String) (sort : Option SortMethod)
    (sd : Option SortDirection) :
    ∀ (n : Nat) (entries : List FSTree), sizeOf entries < n →
    ∀ (dirPath : String) (depth : Nat),
    (tripsNew mm rootDir pats sort sd dirPath depth
      (prepareEntries mm pats sort sd dirPath entries)).Perm
    (tripsOld mm rootDir pats dirPath depth
      (filterEntries mm pats dirPath entries)) := by
  intro n
  induction n with
  | zero => intro entries h; exact absurd h (Nat.not_lt_zero _)
  | succ n ih =>
    intro entries hlt dirPath depth
    have hB : ∀ (l : List FSTree), (∀ e ∈ l, sizeOf e < sizeOf entries) →
        ∀ (dp : String) (d : Nat),
        (tripsNew mm rootDir pats sort sd dp d l).Perm
          (tripsOld mm rootDir pats dp d l) := by
      intro l
      induction l with
      | nil =>
        intro _ dp d
        rw [tripsNew_nil, tripsOld_nil]
      | cons e t iht =>
        intro hmem dp d
        rw [tripsNew_cons_block, tripsOld_cons_block]
        refine List.Perm.append ?_
          (iht (fun x hx => hmem x (List.mem_cons_of_mem _ hx)) dp d)
        cases e with
        | file nm sz mt c => simp [blockNew, blockOld]
        | dir nm sz mt children =>
          simp only [blockNew, blockOld, FSTree.name]
          refine List.Perm.cons _ ?_
          have hsz : sizeOf children < n := by
            have h1 : sizeOf (FSTree.dir nm sz mt children) < sizeOf entries :=
              hmem _ (List.mem_cons_self _ _)
            have h2 : sizeOf children <
                sizeOf (FSTree.dir nm sz mt children) := by
              simp only [FSTree.dir.sizeOf_spec]
              omega
            omega
          exact ih children hsz (pathJoin dp nm) (d + 1)
    have hfilter : ∀ e ∈ filterEntries mm pats dirPath entries,
        sizeOf e < sizeOf entries := by
      intro e he
      have : e ∈ entries := by
        simp only [filterEntries, List.mem_filter] at he
        exact he.1
      exact List.sizeOf_lt_of_mem this
    have hprep : prepareEntries mm pats sort sd dirPath entries =
        sortEntries (filterEntries mm pats dirPath entries) dirPath sort sd :=
      rfl
    refine (tripsNew_perm_congr mm rootDir pats sort sd dirPath depth
      ?_).trans (hB (filterEntries mm pats dirPath entries) hfilter
        dirPath depth)
    rw [hprep]
    exact sortEntries_perm _ _ _ _

/-- C10: the two embedded versions of walkDir — the later one, which
sorts each listing via sortEntries, and the earlier one, which visits
children in raw readdir order — visit exactly the same set of entries
for every directory tree and ignore-pattern list: recording the
(relative path, depth, is-directory) triple of every callback
invocation, the two recorded sequences are permutations of each other
(same triples with the same counts), differing at most in order. -/
theorem claim_C10 (mm : String → String → Bool) (dirPath : String)
    (entries : List FSTree) (rootDir : String) (pats : List String)
    (sort : Option SortMethod) (sd : Option SortDirection) (depth : Nat)
    (dOpen dOpenOld : Nat → Bool) :
    ((walkDir mm dirPath entries rootDir pats recordTriple
        (some recordTriple) depth dOpen sort sd []).1).Perm
      ((walkDirOld mm dirPath entries rootDir pats recordTriple
        (some recordTriple) depth dOpenOld []).1) := by
  show ((walkLoop mm rootDir pats recordTriple (some recordTriple) sort sd
      dirPath (prepareEntries mm pats sort sd dirPath entries) depth dOpen
      []).1).Perm
    ((walkLoopOld mm rootDir pats recordTriple (some recordTriple) dirPath
      (filterEntries mm pats dirPath entries) depth dOpenOld []).1)
  rw [walkLoop_triples, walkLoopOld_triples, List.nil_append,
    List.nil_append]
  exact tripsNew_perm_tripsOld mm rootDir pats sort sd (sizeOf entries + 1)
    entries (Nat.lt_succ_self _) dirPath depth

/-- C9: a failed directory listing propagates. Read over the fallible
embedding: (a) when `readdir(dirPath)` rejects, `walkDirE` returns
exactly that error, with no partial result (the result type carries the
visitor state only in the `ok` branch, which is not produced); (b)
inside the loop, when a directory child's listing rejects, the recursive
call's error is returned immediately, abandoning the remaining siblings,
whatever they are; (c) at the CLI boundary (`main`), a rejected scan
exits non-zero. -/
theorem claim_C9 {σ : Type} (mm : String → String → Bool)
    (rootDir : String) (pats : List String) (onFile : FileCallbackE σ)
    (onDir : Option (FileCallbackE σ)) (sort : Option SortMethod)
    (sd : Option SortDirection) (err : String) :
    (∀ (dirPath : String) (depth : Nat) (dOpen : Nat → Bool) (s : σ),
      walkDirE mm dirPath (Except.error err) rootDir pats onFile onDir
        depth dOpen sort sd s = Except.error err) ∧
    (∀ (dirPath nm : String) (sz : Nat) (mt : Int) (rest : List FSTreeE)
        (depth : Nat) (dOpen : Nat → Bool) (s : σ),
      walkLoopE mm rootDir pats onFile onDir sort sd dirPath
        (FSTreeE.dir nm sz mt (Except.error err) :: rest) depth dOpen s =
        Except.error err) ∧
    mainExitCode (Except.error err : Except String (σ × (Nat → Bool))) ≠ 0 := by
  refine ⟨fun _ _ _ _ => rfl, ?_, by simp [mainExitCode]⟩
  intro dirPath nm sz mt rest depth dOpen s
  conv_lhs => rw [walkLoopE.eq_def]

end CodeAtlas